import Mathlib

/-!
Shallow embedding of the knowledge-base inference engine of
`src/knowledge/minesweeper/minesweeper.py` (classes `Sentence` and
`MinesweeperAI`, plus the ground-truth neighbour count of class
`Minesweeper`), together with theorems settling the frozen claims about it.

Conventions of the embedding:
* a `Cell` is a pair of integers `(row, column)`, exactly the Python tuple;
* Python `set`s of cells become `Finset (Int × Int)`; the knowledge base,
  a Python `list`, becomes a `List Sentence`;
* `Sentence.count` is an `Int`, since the Python integer may go negative
  (`count -= 1`, `sentence2.count - sentence1.count`);
* loops of the form `for cell in S: self.mark_safe(cell)` are embedded as the
  batch update they compute: the per-cell operations for distinct cells
  commute, so iterating them over a set in any order removes `S` from every
  sentence and unions `S` into the classified set;
* the unbounded recursion of `update_knowledge_base` is embedded with fuel
  (`none` = the Python recursion has not returned within that many nested
  calls); the `while` loop of `add_knowledge` carries its literal bound 150.
-/

abbrev Cell := Int × Int

/-- Embedding of Python class `Sentence`: a set of board cells and a count of
how many of them are mines.  Python `__eq__` compares `cells` and `count`,
which is exactly structure equality. -/
structure Sentence where
  cells : Finset Cell
  count : Int
deriving DecidableEq

namespace Sentence

/-- `Sentence.known_mines`: all cells if `len(cells) == count`, else empty. -/
def knownMines (s : Sentence) : Finset Cell :=
  if (s.cells.card : Int) = s.count then s.cells else ∅

/-- `Sentence.known_safes`: all cells if `count == 0`, else empty. -/
def knownSafes (s : Sentence) : Finset Cell :=
  if s.count = 0 then s.cells else ∅

/-- `Sentence.mark_mine`: if the cell is present, remove it and decrement
`count`. -/
def markMine (s : Sentence) (c : Cell) : Sentence :=
  if c ∈ s.cells then ⟨s.cells.erase c, s.count - 1⟩ else s

/-- `Sentence.mark_safe`: if the cell is present, remove it (count kept). -/
def markSafe (s : Sentence) (c : Cell) : Sentence :=
  if c ∈ s.cells then ⟨s.cells.erase c, s.count⟩ else s

end Sentence

/-- Ground truth: `Minesweeper.nearby_mines`.  The board stores
`board[i][j] = True` exactly for the cells in `mines`, and the count ranges
over the 3×3 block around `cell`, skipping `cell` itself, keeping cells with
`0 <= i < height and 0 <= j < width` that hold a mine. -/
def nearbyMinesTruth (height width : Int) (mines : Finset Cell) (cell : Cell) : Nat :=
  ((({cell.1 - 1, cell.1, cell.1 + 1} : Finset Int) ×ˢ
    ({cell.2 - 1, cell.2, cell.2 + 1} : Finset Int)).filter
      (fun p => p ≠ cell ∧ 0 ≤ p.1 ∧ p.1 < height ∧ 0 ≤ p.2 ∧ p.2 < width ∧ p ∈ mines)).card

/-- Embedding of the mutable state of Python class `MinesweeperAI`. -/
structure AIState where
  height : Int
  width : Int
  movesMade : Finset Cell
  mines : Finset Cell
  safes : Finset Cell
  knowledge : List Sentence
deriving DecidableEq

/-- `MinesweeperAI.__init__(height, width)`. -/
def newAgent (height width : Int) : AIState :=
  ⟨height, width, ∅, ∅, ∅, []⟩

namespace AIState

/-- `MinesweeperAI.mark_mine`: add the cell to `self.mines` and apply
`Sentence.mark_mine` to every sentence of the knowledge base. -/
def markMine (st : AIState) (c : Cell) : AIState :=
  { st with
    mines := insert c st.mines
    knowledge := st.knowledge.map (fun s => s.markMine c) }

/-- `MinesweeperAI.mark_safe`: add the cell to `self.safes` and apply
`Sentence.mark_safe` to every sentence of the knowledge base. -/
def markSafe (st : AIState) (c : Cell) : AIState :=
  { st with
    safes := insert c st.safes
    knowledge := st.knowledge.map (fun s => s.markSafe c) }

/-- `MinesweeperAI.nearby_cells`: the comprehension
`{(i, j) for i in cell[0]-1..cell[0]+1 for j in cell[1]-1..cell[1]+1
  if (i, j) != cell and 0 <= i < self.width and 0 <= j < self.height}`.
Note the source compares the row `i` against `self.width` and the column `j`
against `self.height`; the embedding reproduces that literally. -/
def nearbyCells (st : AIState) (cell : Cell) : Finset Cell :=
  (({cell.1 - 1, cell.1, cell.1 + 1} : Finset Int) ×ˢ
    ({cell.2 - 1, cell.2, cell.2 + 1} : Finset Int)).filter
      (fun p => p ≠ cell ∧ 0 ≤ p.1 ∧ p.1 < st.width ∧ 0 ≤ p.2 ∧ p.2 < st.height)

end AIState

/-- Batch form of `for cell in cs: self.mark_safe(cell)`: every cell of `cs`
joins `safes` and is removed from every sentence (counts unchanged).  The
per-cell `mark_safe` operations commute, so this is their combined effect in
any iteration order over the Python set. -/
def markSafeSet (st : AIState) (cs : Finset Cell) : AIState :=
  { st with
    safes := st.safes ∪ cs
    knowledge := st.knowledge.map (fun s => ⟨s.cells \ cs, s.count⟩) }

/-- Batch form of `for cell in cs: self.mark_mine(cell)`: every cell of `cs`
joins `mines`, is removed from every sentence, and each sentence's count drops
by the number of its cells that were in `cs`.  The per-cell `mark_mine`
operations commute, so this is their combined effect in any iteration order
over the Python set. -/
def markMineSet (st : AIState) (cs : Finset Cell) : AIState :=
  { st with
    mines := st.mines ∪ cs
    knowledge := st.knowledge.map
      (fun s => ⟨s.cells \ cs, s.count - ((s.cells ∩ cs).card : Int)⟩) }

/-- `MinesweeperAI.find_new_safes`: union of `known_safes()` over the
knowledge base (the `if len > 0` guard of the source is kept). -/
def findNewSafes (kb : List Sentence) : Finset Cell :=
  kb.foldl (fun acc s => if 0 < s.knownSafes.card then acc ∪ s.knownSafes else acc) ∅

/-- `MinesweeperAI.find_new_mines`: union of `known_mines()` over the
knowledge base, minus the cells already in `self.mines`. -/
def findNewMines (st : AIState) : Finset Cell :=
  (st.knowledge.foldl
    (fun acc s => if 0 < s.knownMines.card then acc ∪ s.knownMines else acc) ∅) \ st.mines

/-- `MinesweeperAI.new_sentence_from_safes`: strict-subset test
`delta < current_sentence.cells`, the `len(delta) > 0` guard, and the
membership test against the current knowledge base. -/
def newSentenceFromSafes (kb : List Sentence) (safes : Finset Cell)
    (cur : Sentence) : Option Sentence :=
  let delta := cur.cells \ safes
  if delta ⊂ cur.cells ∧ 0 < delta.card then
    let snt : Sentence := ⟨delta, cur.count⟩
    if snt ∉ kb ∧ 0 < snt.cells.card then some snt else none
  else none

/-- The `no_doubles` accumulation loop of `update_knowledge_base`: keep the
first occurrence of each sentence. -/
def noDoublesAux : List Sentence → List Sentence → List Sentence
  | acc, [] => acc
  | acc, s :: rest => noDoublesAux (if s ∈ acc then acc else acc ++ [s]) rest

/-- `no_doubles` built from the empty accumulator. -/
def noDoubles (l : List Sentence) : List Sentence := noDoublesAux [] l

/-- One iteration of `for sentence in (..., ...): if sentence is not None and
sentence not in for_adding: for_adding.append(sentence)`. -/
def condAppend (acc : List Sentence) (o : Option Sentence) : List Sentence :=
  match o with
  | some s => if s ∈ acc then acc else acc ++ [s]
  | none => acc

/-- Body of the pair loop of `update_knowledge_base` for one pair
`(s1, s2) = (self.knowledge[i], self.knowledge[j])`: first the two
`new_sentence_from_safes` candidates (each appended unless already collected),
then the subset-difference candidate with its `not in knowledge`,
`not in for_adding` and non-emptiness checks. -/
def pairStep (kb : List Sentence) (safes : Finset Cell)
    (acc : List Sentence) (s1 s2 : Sentence) : List Sentence :=
  let acc1 := condAppend acc (newSentenceFromSafes kb safes s1)
  let acc2 := condAppend acc1 (newSentenceFromSafes kb safes s2)
  let cand : Option Sentence :=
    if s1.cells ⊆ s2.cells then some ⟨s2.cells \ s1.cells, s2.count - s1.count⟩
    else if s2.cells ⊆ s1.cells then some ⟨s1.cells \ s2.cells, s1.count - s2.count⟩
    else none
  match cand with
  | some ns => if ns ∉ kb ∧ ns ∉ acc2 ∧ 0 < ns.cells.card then acc2 ++ [ns] else acc2
  | none => acc2

/-- The double index loop `for i in range(len-1): for j in range(i+1, len)`:
the head element is paired with each later element in order, then the loop
continues on the tail. -/
def forAddingAux (kb : List Sentence) (safes : Finset Cell) :
    List Sentence → List Sentence → List Sentence
  | acc, [] => acc
  | acc, s1 :: rest =>
      forAddingAux kb safes (rest.foldl (fun a s2 => pairStep kb safes a s1 s2) acc) rest

/-- The complete `for_adding` list computed by one pass of
`update_knowledge_base` over the normalized knowledge base `kb`. -/
def forAdding (kb : List Sentence) (safes : Finset Cell) : List Sentence :=
  forAddingAux kb safes [] kb

/-- `MinesweeperAI.update_knowledge_base`, with fuel for the unbounded Python
recursion: drop empty sentences, de-duplicate, collect `for_adding` from all
pairs; if non-empty, append it all and recurse.  `none` means the Python call
would not have returned within `fuel` nested calls. -/
def updateKB (safes : Finset Cell) : Nat → List Sentence → Option (List Sentence)
  | 0, _ => none
  | fuel + 1, kb =>
      let k1 := kb.filter (fun s => 0 < s.cells.card)
      let k2 := noDoubles k1
      let fa := forAdding k2 safes
      if fa = [] then some k2 else updateKB safes fuel (k2 ++ fa)

/-- The `while` loop of `add_knowledge` (lines 203–224): while `new_safes` or
`new_mines` is non-empty and fewer than 150 iterations have run, mark the new
safes, mark the new mines, rerun `update_knowledge_base`, recompute.  `ufuel`
is the fuel handed to each `update_knowledge_base` call. -/
def ckLoop (ufuel : Nat) : Nat → AIState → Option AIState
  | 0, st => some st
  | fuel + 1, st =>
      let ns := findNewSafes st.knowledge
      let nm := findNewMines st
      if 0 < ns.card ∨ 0 < nm.card then
        let stA := if 0 < ns.card then markSafeSet st ns else st
        let stB := if 0 < nm.card then markMineSet stA nm else stA
        match updateKB stB.safes ufuel stB.knowledge with
        | none => none
        | some kb2 => ckLoop ufuel fuel { stB with knowledge := kb2 }
      else some st

/-- Lines 201–230 of `add_knowledge`: run `update_knowledge_base`, then the
mark-and-recompute loop with its literal bound of 150 iterations. -/
def runClosure (ufuel : Nat) (st : AIState) : Option AIState :=
  match updateKB st.safes ufuel st.knowledge with
  | none => none
  | some kb2 => ckLoop ufuel 150 { st with knowledge := kb2 }

/-- The state built by lines 187–199 of `add_knowledge` before closure runs,
in the case `count > 0` with the new sentence not yet present: record the
move, mark the cell safe, append `Sentence(nearby_cells(cell), count)`. -/
def preClosureState (st : AIState) (cell : Cell) (count : Int) : AIState :=
  let st1 := AIState.markSafe { st with movesMade := insert cell st.movesMade } cell
  { st1 with knowledge := st1.knowledge ++ [⟨st1.nearbyCells cell, count⟩] }

/-- `MinesweeperAI.add_knowledge`: record the move, mark the cell safe; if
`count == 0` mark every nearby cell safe; if `count > 0` append
`Sentence(nearby_cells(cell), count)` unless it is already present, in which
case return at once (line 198) without running closure; then closure. -/
def addKnowledge (ufuel : Nat) (st : AIState) (cell : Cell) (count : Int) :
    Option AIState :=
  let st1 := AIState.markSafe { st with movesMade := insert cell st.movesMade } cell
  let nearby := st1.nearbyCells cell
  let st2 := if count = 0 then markSafeSet st1 nearby else st1
  if 0 < count then
    let snt : Sentence := ⟨nearby, count⟩
    if snt ∈ st2.knowledge then some st2
    else runClosure ufuel { st2 with knowledge := st2.knowledge ++ [snt] }
  else runClosure ufuel st2

/-- A sequence of `add_knowledge` calls. -/
def runCalls (ufuel : Nat) : AIState → List (Cell × Int) → Option AIState
  | st, [] => some st
  | st, (c, k) :: rest =>
      match addKnowledge ufuel st c k with
      | none => none
      | some st' => runCalls ufuel st' rest

/-- `MinesweeperAI.make_safe_move`: the candidate set `self.safes -
self.moves_made` from which the move is drawn at random. -/
def safeMoveChoices (st : AIState) : Finset Cell :=
  st.safes \ st.movesMade

/-- `MinesweeperAI.make_random_move`: the candidate set
`{(i, j) for i in range(self.width) for j in range(self.height)} -
self.moves_made - self.mines` from which the move is drawn at random.  As in
the source, the first coordinate ranges below `self.width` and the second
below `self.height`. -/
def randomMoveChoices (st : AIState) : Finset Cell :=
  (((Finset.Ico 0 st.width) ×ˢ (Finset.Ico 0 st.height)) \ st.movesMade) \ st.mines

/-- Following the spec's words (§4.2 step 3), for comparison with the code:
the frontier sentence of an observation — the in-bounds 8-neighbourhood of
`cell` (row below `height`, column below `width`), excluding `cell` itself and
every cell already in `known_hazards ∪ known_safe`, with count `hazard_count`
minus the number of neighbours already known to be hazards. -/
def specFrontierSentence (st : AIState) (cell : Cell) (hazardCount : Int) : Sentence :=
  let nb := (({cell.1 - 1, cell.1, cell.1 + 1} : Finset Int) ×ˢ
    ({cell.2 - 1, cell.2, cell.2 + 1} : Finset Int)).filter
      (fun p => p ≠ cell ∧ 0 ≤ p.1 ∧ p.1 < st.height ∧ 0 ≤ p.2 ∧ p.2 < st.width)
  ⟨nb \ (st.mines ∪ st.safes), hazardCount - ((nb ∩ st.mines).card : Int)⟩

/-- A sentence is satisfied by a mine assignment `M` when exactly `count` of
its cells lie in `M`. -/
def satBy (M : Finset Cell) (s : Sentence) : Prop :=
  (((s.cells ∩ M).card : Int)) = s.count

instance (M : Finset Cell) (s : Sentence) : Decidable (satBy M s) := by
  unfold satBy; infer_instance

/-- An observation sequence is truthful for board `(height, width, M)` when
every observed cell is in bounds, is not a mine, and reports exactly the
ground-truth neighbour count. -/
def truthfulCalls (height width : Int) (M : Finset Cell)
    (calls : List (Cell × Int)) : Prop :=
  ∀ p ∈ calls, 0 ≤ p.1.1 ∧ p.1.1 < height ∧ 0 ≤ p.1.2 ∧ p.1.2 < width ∧
    p.1 ∉ M ∧ p.2 = (nearbyMinesTruth height width M p.1 : Int)

instance (height width : Int) (M : Finset Cell) (calls : List (Cell × Int)) :
    Decidable (truthfulCalls height width M calls) := by
  unfold truthfulCalls; infer_instance

/-! ## Helper projections for stating facts about `Option AIState` results -/

/-- The mine set of an optional state (empty when the run did not return). -/
def minesOf (o : Option AIState) : Finset Cell := (o.map AIState.mines).getD ∅

/-- The safe set of an optional state (empty when the run did not return). -/
def safesOf (o : Option AIState) : Finset Cell := (o.map AIState.safes).getD ∅

/-- The knowledge base of an optional state. -/
def knowledgeOf (o : Option AIState) : List Sentence :=
  (o.map AIState.knowledge).getD []

/-- The visited set of an optional state. -/
def movesOf (o : Option AIState) : Finset Cell := (o.map AIState.movesMade).getD ∅

/-- The `find_new_mines` view of an optional state. -/
def newMinesOf (o : Option AIState) : Finset Cell :=
  match o with
  | some st => findNewMines st
  | none => ∅

/-! ## Concrete scenarios used by several claims -/

/-- Truthful observation sequence on a 2×3 board whose only mine is `(1, 2)`:
both reported counts are the ground-truth neighbour counts. -/
def nonsquareCalls : List (Cell × Int) :=
  [(((0:Int),(2:Int)), 1), (((0:Int),(1:Int)), 1)]

/-- The same board with a third truthful observation at `(1, 1)`. -/
def nonsquareCalls3 : List (Cell × Int) :=
  [(((0:Int),(2:Int)), 1), (((0:Int),(1:Int)), 1), (((1:Int),(1:Int)), 1)]

/-- Two observations on a 3×3 board: a zero count at `(0, 0)`, then count 1 at
`(2, 2)` whose raw neighbourhood contains the already-safe cell `(1, 1)`. -/
def squareTrace : List (Cell × Int) :=
  [(((0:Int),(0:Int)), 0), (((2:Int),(2:Int)), 1)]

/-- Calls used for the C3 counterexample, on an agent of height 3 and
width 2.  The fourth call repeats the second: its sentence
`(nearby_cells((1,2)), 2)` is already in the knowledge base when line 197
tests for it. -/
def c3preCalls : List (Cell × Int) :=
  [(((1:Int),(2:Int)), 0), (((1:Int),(2:Int)), 2), (((2:Int),(2:Int)), 1)]

/-- The same observation sequence with the duplicate fourth call. -/
def c3dupCalls : List (Cell × Int) :=
  c3preCalls ++ [(((1:Int),(2:Int)), 2)]

/-- C1 (code bug).  On a 2×3 board whose only mine is `(1, 2)`, the two
observations of `nonsquareCalls` are consistent with that ground truth (each
observed cell is in bounds, is not a mine, and reports its exact in-bounds
8-neighbour mine count), yet the agent places `(1, 1)` — not a mine — into its
known-mine set: `nearby_cells` bounds the row by `self.width` and the column
by `self.height`, so the constructed sentences pair true counts with wrong
neighbourhoods. -/
theorem c1_soundness_violated_on_nonsquare_board :
    truthfulCalls 2 3 {((1:Int),(2:Int))} nonsquareCalls ∧
    ((1:Int),(1:Int)) ∈ minesOf (runCalls 20 (newAgent 2 3) nonsquareCalls) ∧
    ((1:Int),(1:Int)) ∉ ({((1:Int),(2:Int))} : Finset Cell) := by decide

/-- C6 (code bug).  For an agent of height 1 and width 3, `nearby_cells (0,0)`
produces the cell `(1, 0)` whose row 1 is not below the height, and the
total-move enumeration of `make_random_move` contains `(2, 0)` with row 2 not
below the height: both enumerations bound the row by `width` and the column by
`height`, the swap of the claimed bounds. -/
theorem c6_swapped_bounds_eval :
    ((1:Int),(0:Int)) ∈ (newAgent 1 3).nearbyCells ((0:Int),(0:Int)) ∧
    ¬ ((1:Int) < (newAgent 1 3).height) ∧
    ((2:Int),(0:Int)) ∈ randomMoveChoices (newAgent 1 3) ∧
    ¬ ((2:Int) < (newAgent 1 3).height) := by decide

/-- C2 counterexample.  After `squareTrace` on a 3×3 agent, the second call
(`cell (2,2)`, count 1) has appended the raw-neighbourhood sentence
`({(1,1),(1,2),(2,1)}, 1)` even though `(1, 1)` is already known safe, and the
frontier sentence the claim describes, `({(1,2),(2,1)}, 1)`, is not in the
knowledge base. -/
theorem c2_counterexample :
    knowledgeOf (runCalls 20 (newAgent 3 3) squareTrace) =
      [⟨{((1:Int),(1:Int)), ((1:Int),(2:Int)), ((2:Int),(1:Int))}, 1⟩] ∧
    ((1:Int),(1:Int)) ∈ safesOf (runCalls 20 (newAgent 3 3) squareTrace) ∧
    (⟨{((1:Int),(2:Int)), ((2:Int),(1:Int))}, 1⟩ : Sentence) ∉
      knowledgeOf (runCalls 20 (newAgent 3 3) squareTrace) := by decide

/-- C5 counterexample.  At the point where `squareTrace` returns control to
the caller, the knowledge base contains a sentence whose cells include
`(1, 1)`, a cell that is in the known-safe set — the claimed stripped-sentence
invariant fails at a return point. -/
theorem c5_counterexample :
    (⟨{((1:Int),(1:Int)), ((1:Int),(2:Int)), ((2:Int),(1:Int))}, 1⟩ : Sentence) ∈
      knowledgeOf (runCalls 20 (newAgent 3 3) squareTrace) ∧
    ((1:Int),(1:Int)) ∈
      ({((1:Int),(1:Int)), ((1:Int),(2:Int)), ((2:Int),(1:Int))} : Finset Cell) ∧
    ((1:Int),(1:Int)) ∈ safesOf (runCalls 20 (newAgent 3 3) squareTrace) := by decide

/-- C7 counterexample.  The three observations of `nonsquareCalls3` satisfy
the caller contract with truthful counts on the 2×3 board with mine `(1, 2)`,
yet afterwards `(1, 1)` lies in the known-safe set and in the known-mine set
at once: the two sets do not stay disjoint. -/
theorem c7_counterexample :
    truthfulCalls 2 3 {((1:Int),(2:Int))} nonsquareCalls3 ∧
    ((1:Int),(1:Int)) ∈ safesOf (runCalls 20 (newAgent 2 3) nonsquareCalls3) ∧
    ((1:Int),(1:Int)) ∈ minesOf (runCalls 20 (newAgent 2 3) nonsquareCalls3) := by decide

/-- C9 counterexample.  `add_knowledge` performs no caller-contract check: a
call with the out-of-bounds cell `(5, 5)` proceeds with learning (the cell is
recorded as visited and marked safe), and a repeated call with the
already-visited cell `(0, 0)` also proceeds, appending a second sentence,
instead of reporting an error. -/
theorem c9_counterexample :
    ((5:Int),(5:Int)) ∈ safesOf (addKnowledge 10 (newAgent 3 3) ((5:Int),(5:Int)) 1) ∧
    ((5:Int),(5:Int)) ∈ movesOf (addKnowledge 10 (newAgent 3 3) ((5:Int),(5:Int)) 1) ∧
    ¬ ((5:Int) < (newAgent 3 3).height) ∧
    (knowledgeOf (runCalls 10 (newAgent 3 3)
        [(((0:Int),(0:Int)), 1), (((0:Int),(0:Int)), 2)]) ≠
      knowledgeOf (runCalls 10 (newAgent 3 3) [(((0:Int),(0:Int)), 1)])) := by decide

/-- C4 counterexample.  The knowledge base `[(∅, 1), ({(0,0)}, 1)]` contains a
pair of distinct sentences with `S1.cells ⊆ S2.cells` and a non-empty,
not-yet-present difference sentence `({(0,0)}, 0)`, but closure drops the
empty-celled sentence in its normalization step and never derives the
difference: the result is `[({(0,0)}, 1)]` alone. -/
theorem c4_counterexample :
    updateKB ∅ 5 [⟨∅, 1⟩, ⟨{((0:Int),(0:Int))}, 1⟩] =
      some [⟨{((0:Int),(0:Int))}, 1⟩] ∧
    ((∅ : Finset Cell) ⊆ {((0:Int),(0:Int))}) ∧
    (({((0:Int),(0:Int))} : Finset Cell) \ ∅).Nonempty ∧
    (⟨{((0:Int),(0:Int))}, 0⟩ : Sentence) ∉
      [(⟨{((0:Int),(0:Int))}, 1⟩ : Sentence)] := by decide

/-- C3 counterexample.  Starting from a fresh agent of height 3 and width 2,
the fourth call of `c3dupCalls` repeats an earlier observation: after the
initial `mark_safe`, the sentence `(nearby_cells((1,2)), 2)` is already in the
knowledge base, so line 198 returns without running closure — yet that
`mark_safe` has just shrunk another sentence to `({(1,1)}, 1)`, and
`find_new_mines` on the returned state is non-empty: re-running closure would
classify the new cell `(1, 1)`, so the call did not close its state. -/
theorem c3_counterexample :
    ((⟨(newAgent 3 2).nearbyCells ((1:Int),(2:Int)), 2⟩ : Sentence) ∈
      (knowledgeOf (runCalls 10 (newAgent 3 2) c3preCalls)).map
        (fun s => s.markSafe ((1:Int),(2:Int)))) ∧
    (runCalls 10 (newAgent 3 2) c3dupCalls).isSome = true ∧
    ((1:Int),(1:Int)) ∈ newMinesOf (runCalls 10 (newAgent 3 2) c3dupCalls) := by decide

/-! ## Monotonicity of the classified sets -/

/-- One loop pass of `add_knowledge` never removes a safe or mine
classification, and never touches the visited set. -/
theorem ckLoop_mono (u : Nat) :
    ∀ (f : Nat) (st st' : AIState), ckLoop u f st = some st' →
      st.safes ⊆ st'.safes ∧ st.mines ⊆ st'.mines ∧
        st'.movesMade = st.movesMade := by
  intro f
  induction f with
  | zero =>
      intro st st' h
      simp only [ckLoop, Option.some.injEq] at h
      subst h
      exact ⟨Finset.Subset.refl _, Finset.Subset.refl _, rfl⟩
  | succ n ih =>
      intro st st' h
      simp only [ckLoop] at h
      split at h
      · by_cases hns : 0 < (findNewSafes st.knowledge).card <;>
          by_cases hnm : 0 < (findNewMines st).card
        · simp only [if_pos hns, if_pos hnm] at h
          cases hu : updateKB (markMineSet (markSafeSet st (findNewSafes st.knowledge))
              (findNewMines st)).safes u
              (markMineSet (markSafeSet st (findNewSafes st.knowledge))
                (findNewMines st)).knowledge with
          | none => rw [hu] at h; simp at h
          | some kb2 =>
              rw [hu] at h
              have hr := ih _ _ h
              simp only [markSafeSet, markMineSet] at hr
              exact ⟨Finset.Subset.trans Finset.subset_union_left hr.1,
                Finset.Subset.trans Finset.subset_union_left hr.2.1, hr.2.2⟩
        · simp only [if_pos hns, if_neg hnm] at h
          cases hu : updateKB (markSafeSet st (findNewSafes st.knowledge)).safes u
              (markSafeSet st (findNewSafes st.knowledge)).knowledge with
          | none => rw [hu] at h; simp at h
          | some kb2 =>
              rw [hu] at h
              have hr := ih _ _ h
              simp only [markSafeSet] at hr
              exact ⟨Finset.Subset.trans Finset.subset_union_left hr.1, hr.2.1, hr.2.2⟩
        · simp only [if_neg hns, if_pos hnm] at h
          cases hu : updateKB (markMineSet st (findNewMines st)).safes u
              (markMineSet st (findNewMines st)).knowledge with
          | none => rw [hu] at h; simp at h
          | some kb2 =>
              rw [hu] at h
              have hr := ih _ _ h
              simp only [markMineSet] at hr
              exact ⟨hr.1, Finset.Subset.trans Finset.subset_union_left hr.2.1, hr.2.2⟩
        · simp only [if_neg hns, if_neg hnm] at h
          cases hu : updateKB st.safes u st.knowledge with
          | none => rw [hu] at h; simp at h
          | some kb2 =>
              rw [hu] at h
              have hr := ih _ _ h
              exact ⟨hr.1, hr.2.1, hr.2.2⟩
      · simp only [Option.some.injEq] at h
        subst h
        exact ⟨Finset.Subset.refl _, Finset.Subset.refl _, rfl⟩

/-- `update_knowledge_base` followed by the loop never removes a
classification and never touches the visited set. -/
theorem runClosure_mono (u : Nat) (st st' : AIState)
    (h : runClosure u st = some st') :
    st.safes ⊆ st'.safes ∧ st.mines ⊆ st'.mines ∧
      st'.movesMade = st.movesMade := by
  unfold runClosure at h
  split at h
  · simp at h
  · have hr := ckLoop_mono u 150 _ _ h
    exact ⟨hr.1, hr.2.1, hr.2.2⟩

/-- A full `add_knowledge` call records the move, keeps every earlier
classification, and marks the observed cell safe. -/
theorem addKnowledge_effects (u : Nat) (st : AIState) (c : Cell) (k : Int)
    (st' : AIState) (h : addKnowledge u st c k = some st') :
    st.safes ⊆ st'.safes ∧ st.mines ⊆ st'.mines ∧ c ∈ st'.safes ∧
      st'.movesMade = insert c st.movesMade := by
  simp only [addKnowledge, AIState.markSafe] at h
  by_cases hk : k = 0
  · have hnpos : ¬ 0 < k := by rw [hk]; exact lt_irrefl 0
    simp only [if_pos hk, if_neg hnpos] at h
    have hr := runClosure_mono u _ _ h
    simp only [markSafeSet] at hr
    refine ⟨?_, hr.2.1, ?_, hr.2.2⟩
    · exact Finset.Subset.trans
        (Finset.Subset.trans (Finset.subset_insert c st.safes) Finset.subset_union_left)
        hr.1
    · exact hr.1 (Finset.mem_union_left _ (Finset.mem_insert_self c st.safes))
  · simp only [if_neg hk] at h
    by_cases hpos : 0 < k
    · rw [if_pos hpos] at h
      split at h
      · simp only [Option.some.injEq] at h
        subst h
        exact ⟨Finset.subset_insert c st.safes, Finset.Subset.refl _,
          Finset.mem_insert_self c st.safes, rfl⟩
      · have hr := runClosure_mono u _ _ h
        refine ⟨?_, hr.2.1, ?_, hr.2.2⟩
        · exact Finset.Subset.trans (Finset.subset_insert c st.safes) hr.1
        · exact hr.1 (Finset.mem_insert_self c st.safes)
    · rw [if_neg hpos] at h
      have hr := runClosure_mono u _ _ h
      refine ⟨?_, hr.2.1, ?_, hr.2.2⟩
      · exact Finset.Subset.trans (Finset.subset_insert c st.safes) hr.1
      · exact hr.1 (Finset.mem_insert_self c st.safes)

/-- C7, amended.  Across any sequence of `observe` (`add_knowledge`) calls,
the known-safe set and the known-mine set never lose an element: each is a
superset of its value after every earlier call.  (The disjointness half of the
original claim fails, see the counterexample: a cell can be classified into
both sets.) -/
theorem c7_classification_monotone :
    ∀ (u : Nat) (calls : List (Cell × Int)) (st st' : AIState),
      runCalls u st calls = some st' →
      st.safes ⊆ st'.safes ∧ st.mines ⊆ st'.mines := by
  intro u calls
  induction calls with
  | nil =>
      intro st st' h
      simp only [runCalls, Option.some.injEq] at h
      subst h
      exact ⟨Finset.Subset.refl _, Finset.Subset.refl _⟩
  | cons p rest ih =>
      intro st st' h
      obtain ⟨c, k⟩ := p
      simp only [runCalls] at h
      cases ha : addKnowledge u st c k with
      | none => rw [ha] at h; simp at h
      | some stm =>
          rw [ha] at h
          have h1 := addKnowledge_effects u st c k stm ha
          have h2 := ih stm st' h
          exact ⟨Finset.Subset.trans h1.1 h2.1, Finset.Subset.trans h1.2.1 h2.2⟩

/-- Witness for C7: one concrete zero-count call on a fresh 3×3 agent. -/
def c7W : AIState :=
  ⟨3, 3, {((0:Int),(0:Int))}, ∅,
    {((0:Int),(0:Int)), ((0:Int),(1:Int)), ((1:Int),(0:Int)), ((1:Int),(1:Int))}, []⟩

theorem c7_classification_monotone_witness :
    runCalls 5 (newAgent 3 3) [(((0:Int),(0:Int)), 0)] = some c7W ∧
      (newAgent 3 3).safes ⊆ c7W.safes ∧ (newAgent 3 3).mines ⊆ c7W.mines :=
  ⟨by decide,
    (c7_classification_monotone 5 [(((0:Int),(0:Int)), 0)] (newAgent 3 3) c7W
      (by decide)).1,
    (c7_classification_monotone 5 [(((0:Int),(0:Int)), 0)] (newAgent 3 3) c7W
      (by decide)).2⟩

/-- C9, amended.  `add_knowledge` performs no caller-contract validation:
every call — out of bounds or already visited included — is processed by the
normal path, recording the cell as visited and marking it safe, and no error
is reported. -/
theorem c9_no_validation (u : Nat) (st : AIState) (c : Cell) (k : Int)
    (st' : AIState) (h : addKnowledge u st c k = some st') :
    st'.movesMade = insert c st.movesMade ∧ c ∈ st'.safes :=
  ⟨(addKnowledge_effects u st c k st' h).2.2.2,
    (addKnowledge_effects u st c k st' h).2.2.1⟩

/-- Witness for C9: a concrete call on a fresh 2×2 agent. -/
def c9W : AIState :=
  ⟨2, 2, {((0:Int),(0:Int))}, ∅, {((0:Int),(0:Int))},
    [⟨{((0:Int),(1:Int)), ((1:Int),(0:Int)), ((1:Int),(1:Int))}, 5⟩]⟩

theorem c9_no_validation_witness :
    addKnowledge 5 (newAgent 2 2) ((0:Int),(0:Int)) 5 = some c9W ∧
      c9W.movesMade = insert ((0:Int),(0:Int)) (newAgent 2 2).movesMade ∧
      ((0:Int),(0:Int)) ∈ c9W.safes :=
  ⟨by decide, c9_no_validation 5 (newAgent 2 2) ((0:Int),(0:Int)) 5 c9W (by decide)⟩

/-- C5, amended.  The stripping half of the claim that survives: at the
moment a cell is classified, `mark_safe`/`mark_mine` remove it from every
sentence then in the knowledge base.  (Sentences constructed afterwards may
reintroduce already-classified cells and are not re-stripped, see the
counterexample.) -/
theorem c5_marks_strip (st : AIState) (c : Cell) (S : Sentence) :
    (S ∈ (st.markSafe c).knowledge → c ∉ S.cells) ∧
    (S ∈ (st.markMine c).knowledge → c ∉ S.cells) := by
  constructor
  · intro hS
    simp only [AIState.markSafe, List.mem_map] at hS
    obtain ⟨T, -, rfl⟩ := hS
    simp only [Sentence.markSafe]
    split
    · exact Finset.not_mem_erase c T.cells
    · rename_i hc
      exact hc
  · intro hS
    simp only [AIState.markMine, List.mem_map] at hS
    obtain ⟨T, -, rfl⟩ := hS
    simp only [Sentence.markMine]
    split
    · exact Finset.not_mem_erase c T.cells
    · rename_i hc
      exact hc

/-- Witness for C5: a concrete sentence after a concrete `mark_safe`. -/
theorem c5_marks_strip_witness :
    ((⟨{((1:Int),(1:Int))}, 1⟩ : Sentence) ∈
      ((⟨2, 2, ∅, ∅, ∅, [⟨{((0:Int),(0:Int)), ((1:Int),(1:Int))}, 1⟩]⟩ : AIState).markSafe
        ((0:Int),(0:Int))).knowledge) ∧
    ((0:Int),(0:Int)) ∉ (⟨{((1:Int),(1:Int))}, 1⟩ : Sentence).cells :=
  ⟨by decide,
    (c5_marks_strip ⟨2, 2, ∅, ∅, ∅, [⟨{((0:Int),(0:Int)), ((1:Int),(1:Int))}, 1⟩]⟩
      ((0:Int),(0:Int)) ⟨{((1:Int),(1:Int))}, 1⟩).1 (by decide)⟩

/-- C2, amended.  For a call with `count > 0` whose sentence is not already
present, `add_knowledge` appends the raw sentence
`Sentence(nearby_cells(cell), count)`: no already-classified neighbour is
excluded and the count is not adjusted.  The appended sentence coincides with
the spec's frontier sentence exactly in the benign case: a square grid (where
the swapped bounds of `nearby_cells` are harmless) with no neighbour already
classified. -/
theorem c2_raw_sentence (u : Nat) (st : AIState) (c : Cell) (k : Int)
    (hk : 0 < k)
    (hnew : (⟨st.nearbyCells c, k⟩ : Sentence) ∉
      st.knowledge.map (fun s => s.markSafe c)) :
    addKnowledge u st c k = runClosure u (preClosureState st c k) ∧
    (preClosureState st c k).knowledge
      = st.knowledge.map (fun s => s.markSafe c) ++ [⟨st.nearbyCells c, k⟩] ∧
    (st.height = st.width →
      Disjoint (st.nearbyCells c) (insert c st.safes ∪ st.mines) →
      (⟨st.nearbyCells c, k⟩ : Sentence)
        = specFrontierSentence
            (AIState.markSafe { st with movesMade := insert c st.movesMade } c) c k) := by
  have hk0 : ¬ k = 0 := by omega
  refine ⟨?_, rfl, ?_⟩
  · simp only [addKnowledge, if_neg hk0, if_pos hk]
    split
    · rename_i habs
      exact absurd habs hnew
    · rfl
  · intro hsq hdisj
    have hmines : Disjoint (st.nearbyCells c) st.mines :=
      hdisj.mono_right Finset.subset_union_right
    have hclassified : Disjoint (st.nearbyCells c) (st.mines ∪ insert c st.safes) := by
      rw [Finset.union_comm]
      exact hdisj
    have hnb : (AIState.markSafe { st with movesMade := insert c st.movesMade } c).nearbyCells c
        = st.nearbyCells c := rfl
    simp only [specFrontierSentence]
    have hsame :
        ((({c.1 - 1, c.1, c.1 + 1} : Finset Int) ×ˢ
          ({c.2 - 1, c.2, c.2 + 1} : Finset Int)).filter
            (fun p => p ≠ c ∧ 0 ≤ p.1 ∧
              p.1 < (AIState.markSafe { st with movesMade := insert c st.movesMade } c).height ∧
              0 ≤ p.2 ∧
              p.2 < (AIState.markSafe { st with movesMade := insert c st.movesMade } c).width))
          = st.nearbyCells c := by
      show ((({c.1 - 1, c.1, c.1 + 1} : Finset Int) ×ˢ
          ({c.2 - 1, c.2, c.2 + 1} : Finset Int)).filter
            (fun p => p ≠ c ∧ 0 ≤ p.1 ∧ p.1 < st.height ∧ 0 ≤ p.2 ∧ p.2 < st.width))
          = st.nearbyCells c
      simp only [AIState.nearbyCells]
      rw [hsq]
    rw [Sentence.mk.injEq]
    constructor
    · rw [hsame]
      show st.nearbyCells c = st.nearbyCells c \ (st.mines ∪ insert c st.safes)
      rw [Finset.sdiff_eq_self_iff_disjoint.mpr hclassified]
    · rw [hsame]
      show k = k - (((st.nearbyCells c ∩ st.mines)).card : Int)
      rw [Finset.disjoint_iff_inter_eq_empty.mp hmines]
      simp

/-- Witness for C2: a fresh 3×3 agent observing `(1, 1)` with count 2. -/
theorem c2_raw_sentence_witness :
    (0:Int) < 2 ∧
    ((⟨(newAgent 3 3).nearbyCells ((1:Int),(1:Int)), 2⟩ : Sentence) ∉
      (newAgent 3 3).knowledge.map (fun s => s.markSafe ((1:Int),(1:Int)))) ∧
    addKnowledge 5 (newAgent 3 3) ((1:Int),(1:Int)) 2
      = runClosure 5 (preClosureState (newAgent 3 3) ((1:Int),(1:Int)) 2) ∧
    ((⟨(newAgent 3 3).nearbyCells ((1:Int),(1:Int)), 2⟩ : Sentence)
      = specFrontierSentence
          (AIState.markSafe
            { newAgent 3 3 with
              movesMade := insert ((1:Int),(1:Int)) (newAgent 3 3).movesMade }
            ((1:Int),(1:Int)))
          ((1:Int),(1:Int)) 2) :=
  ⟨by decide, by decide,
    (c2_raw_sentence 5 (newAgent 3 3) ((1:Int),(1:Int)) 2 (by decide) (by decide)).1,
    (c2_raw_sentence 5 (newAgent 3 3) ((1:Int),(1:Int)) 2 (by decide) (by decide)).2.2
      rfl (by decide)⟩

/-! ## The normalized knowledge base is a fixpoint of normalization -/

theorem mem_noDoublesAux (x : Sentence) :
    ∀ (l acc : List Sentence), x ∈ noDoublesAux acc l ↔ x ∈ acc ∨ x ∈ l := by
  intro l
  induction l with
  | nil => intro acc; simp [noDoublesAux]
  | cons s rest ih =>
      intro acc
      simp only [noDoublesAux]
      rw [ih]
      by_cases hs : s ∈ acc
      · rw [if_pos hs]
        simp only [List.mem_cons]
        constructor
        · tauto
        · rintro (h | rfl | h)
          · exact Or.inl h
          · exact Or.inl hs
          · exact Or.inr h
      · rw [if_neg hs]
        simp only [List.mem_append, List.mem_singleton, List.mem_cons]
        tauto

theorem noDoublesAux_nodup :
    ∀ (l acc : List Sentence), acc.Nodup → (noDoublesAux acc l).Nodup := by
  intro l
  induction l with
  | nil => intro acc h; exact h
  | cons s rest ih =>
      intro acc h
      simp only [noDoublesAux]
      by_cases hs : s ∈ acc
      · rw [if_pos hs]; exact ih acc h
      · rw [if_neg hs]
        refine ih _ ?_
        rw [List.nodup_append]
        exact ⟨h, List.nodup_singleton s, by
          intro a ha hb
          rw [List.mem_singleton] at hb
          subst hb
          exact hs ha⟩

theorem noDoublesAux_eq_self :
    ∀ (l acc : List Sentence), l.Nodup → (∀ x ∈ l, x ∉ acc) →
      noDoublesAux acc l = acc ++ l := by
  intro l
  induction l with
  | nil => intro acc _ _; simp [noDoublesAux]
  | cons s rest ih =>
      intro acc hnd hdis
      simp only [noDoublesAux]
      rw [if_neg (hdis s (List.mem_cons_self s rest))]
      rw [ih (acc ++ [s]) (List.Nodup.of_cons hnd)]
      · simp
      · intro x hx
        rw [List.mem_append, List.mem_singleton]
        rintro (h | h)
        · exact hdis x (List.mem_cons_of_mem s hx) h
        · subst h
          exact (List.nodup_cons.mp hnd).1 hx

theorem mem_noDoubles (x : Sentence) (l : List Sentence) :
    x ∈ noDoubles l ↔ x ∈ l := by
  rw [noDoubles, mem_noDoublesAux]
  simp

theorem noDoubles_nodup (l : List Sentence) : (noDoubles l).Nodup :=
  noDoublesAux_nodup l [] List.nodup_nil

theorem noDoubles_eq_self (l : List Sentence) (h : l.Nodup) : noDoubles l = l := by
  rw [noDoubles, noDoublesAux_eq_self l [] h (by simp)]
  simp

/-- A knowledge-base state that normalization and the pair pass leave
unchanged: exactly the states `update_knowledge_base` returns. -/
def ClosedKB (st : AIState) : Prop :=
  noDoubles (st.knowledge.filter (fun s => 0 < s.cells.card)) = st.knowledge ∧
  forAdding st.knowledge st.safes = []

/-- Whatever `update_knowledge_base` returns is normalized and admits no
further pair-derived sentence. -/
theorem updateKB_fixed (safes : Finset Cell) :
    ∀ (n : Nat) (kb kb2 : List Sentence), updateKB safes n kb = some kb2 →
      noDoubles (kb2.filter (fun s => 0 < s.cells.card)) = kb2 ∧
        forAdding kb2 safes = [] := by
  intro n
  induction n with
  | zero => intro kb kb2 h; simp [updateKB] at h
  | succ m ih =>
      intro kb kb2 h
      simp only [updateKB] at h
      split at h
      · rename_i hfa
        simp only [Option.some.injEq] at h
        subst h
        have hmem : ∀ x ∈ noDoubles (kb.filter (fun s => decide (0 < s.cells.card))),
            0 < x.cells.card := by
          intro x hx
          rw [mem_noDoubles] at hx
          have := List.of_mem_filter hx
          simpa using this
        have hfilter : (noDoubles (kb.filter (fun s => decide (0 < s.cells.card)))).filter
            (fun s => decide (0 < s.cells.card))
            = noDoubles (kb.filter (fun s => decide (0 < s.cells.card))) := by
          rw [List.filter_eq_self]
          intro a ha
          simpa using hmem a ha
        constructor
        · rw [hfilter]
          exact noDoubles_eq_self _ (noDoubles_nodup _)
        · exact hfa
      · exact ih _ _ h

/-- The loop of `add_knowledge` preserves closedness of the knowledge base:
each iteration ends by running `update_knowledge_base` again. -/
theorem ckLoop_closed (u : Nat) :
    ∀ (f : Nat) (st st' : AIState), ckLoop u f st = some st' →
      ClosedKB st → ClosedKB st' := by
  intro f
  induction f with
  | zero =>
      intro st st' h hc
      simp only [ckLoop, Option.some.injEq] at h
      subst h
      exact hc
  | succ n ih =>
      intro st st' h hc
      simp only [ckLoop] at h
      split at h
      · split at h
        · simp at h
        · rename_i kb2 hkb2
          refine ih _ _ h ?_
          have := updateKB_fixed _ _ _ _ hkb2
          exact ⟨this.1, this.2⟩
      · simp only [Option.some.injEq] at h
        subst h
        exact hc

/-- Whatever `runClosure` returns is a closed knowledge-base state. -/
theorem runClosure_closed (u : Nat) (st st' : AIState)
    (h : runClosure u st = some st') : ClosedKB st' := by
  unfold runClosure at h
  split at h
  · simp at h
  · rename_i kb2 hkb2
    refine ckLoop_closed u 150 _ _ h ?_
    have := updateKB_fixed _ _ _ _ hkb2
    exact ⟨this.1, this.2⟩

/-- On a closed state, `update_knowledge_base` is a no-op for any non-zero
fuel: it returns the knowledge base unchanged. -/
theorem closed_updateKB (st : AIState) (hc : ClosedKB st) :
    ∀ m : Nat, updateKB st.safes (m + 1) st.knowledge = some st.knowledge := by
  intro m
  have hmem : ∀ x ∈ st.knowledge, 0 < x.cells.card := by
    intro x hx
    rw [← hc.1, mem_noDoubles] at hx
    have := List.of_mem_filter hx
    simpa using this
  have hfilter : st.knowledge.filter (fun s => decide (0 < s.cells.card))
      = st.knowledge := by
    rw [List.filter_eq_self]
    intro a ha
    simpa using hmem a ha
  have h1 : noDoubles st.knowledge
      = noDoubles (st.knowledge.filter (fun s => decide (0 < s.cells.card))) := by
    rw [hfilter]
  have hnod : noDoubles st.knowledge = st.knowledge := h1.trans hc.1
  simp only [updateKB, hfilter, hnod]
  rw [if_pos hc.2]

/-- C3, amended.  Every `add_knowledge` call that does not hit the
duplicate-sentence early return leaves a knowledge base on which re-running
`update_knowledge_base` (with any non-zero fuel) is a no-op: no sentence is
dropped, de-duplicated or newly derived.  A call with `count > 0` whose
sentence is already present returns at line 198 without running closure at
all, and can leave classifiable facts unextracted (see the counterexample). -/
theorem c3_closure_noop_unless_duplicate (u : Nat) (st : AIState) (c : Cell)
    (k : Int) (st' : AIState) (h : addKnowledge u st c k = some st')
    (hnodup : 0 < k → (⟨st.nearbyCells c, k⟩ : Sentence) ∉
      st.knowledge.map (fun s => s.markSafe c)) :
    ∀ m : Nat, updateKB st'.safes (m + 1) st'.knowledge = some st'.knowledge := by
  intro m
  simp only [addKnowledge] at h
  by_cases hk : k = 0
  · have hnpos : ¬ 0 < k := by rw [hk]; exact lt_irrefl 0
    simp only [if_pos hk, if_neg hnpos] at h
    exact closed_updateKB _ (runClosure_closed u _ _ h) m
  · simp only [if_neg hk] at h
    by_cases hpos : 0 < k
    · rw [if_pos hpos] at h
      split at h
      · rename_i habs
        exact absurd habs (hnodup hpos)
      · exact closed_updateKB _ (runClosure_closed u _ _ h) m
    · rw [if_neg hpos] at h
      exact closed_updateKB _ (runClosure_closed u _ _ h) m

/-- Witness for C3's amended statement: a concrete non-duplicate call. -/
def c3W : AIState :=
  ⟨2, 2, {((1:Int),(1:Int))}, ∅, {((1:Int),(1:Int))},
    [⟨{((0:Int),(0:Int)), ((0:Int),(1:Int)), ((1:Int),(0:Int))}, 1⟩]⟩

theorem c3_closure_noop_unless_duplicate_witness :
    addKnowledge 5 (newAgent 2 2) ((1:Int),(1:Int)) 1 = some c3W ∧
      updateKB c3W.safes 4 c3W.knowledge = some c3W.knowledge :=
  ⟨by decide,
    c3_closure_noop_unless_duplicate 5 (newAgent 2 2) ((1:Int),(1:Int)) 1 c3W
      (by decide) (by decide) 3⟩

/-! ## Completeness of the pair pass: what `for_adding` is guaranteed to
collect -/

/-- `pairStep` only appends: earlier candidates stay collected. -/
theorem pairStep_mono (kb : List Sentence) (safes : Finset Cell)
    (acc : List Sentence) (s1 s2 : Sentence) :
    ∀ x ∈ acc, x ∈ pairStep kb safes acc s1 s2 := by
  intro x hx
  simp only [pairStep, condAppend]
  repeat' split
  all_goals simp_all [List.mem_append]

/-- The inner `for j` fold only appends. -/
theorem foldlPair_mono (kb : List Sentence) (safes : Finset Cell) (s1 : Sentence) :
    ∀ (rest acc : List Sentence) (x : Sentence), x ∈ acc →
      x ∈ rest.foldl (fun a y => pairStep kb safes a s1 y) acc := by
  intro rest
  induction rest with
  | nil => intro acc x hx; exact hx
  | cons y ys ih =>
      intro acc x hx
      exact ih _ x (pairStep_mono kb safes acc s1 y x hx)

/-- The whole pair pass only appends. -/
theorem forAddingAux_mono (kb : List Sentence) (safes : Finset Cell) :
    ∀ (l acc : List Sentence) (x : Sentence), x ∈ acc →
      x ∈ forAddingAux kb safes acc l := by
  intro l
  induction l with
  | nil => intro acc x hx; exact hx
  | cons s rest ih =>
      intro acc x hx
      exact ih _ x (foldlPair_mono kb safes s rest acc x hx)

/-- If `s1.cells ⊆ s2.cells` and the difference sentence is non-empty and not
in the knowledge base, the pair body collects it. -/
theorem pairStep_subset_complete (kb : List Sentence) (safes : Finset Cell)
    (acc : List Sentence) (s1 s2 : Sentence)
    (hsub : s1.cells ⊆ s2.cells) (hne : 0 < (s2.cells \ s1.cells).card)
    (hnotin : (⟨s2.cells \ s1.cells, s2.count - s1.count⟩ : Sentence) ∉ kb) :
    (⟨s2.cells \ s1.cells, s2.count - s1.count⟩ : Sentence)
      ∈ pairStep kb safes acc s1 s2 := by
  simp only [pairStep, if_pos hsub]
  split
  · simp [List.mem_append]
  · rename_i hcond
    tauto

/-- Symmetric variant: the pair body reaches the `elif` branch when the first
subset test fails. -/
theorem pairStep_subset_complete_rev (kb : List Sentence) (safes : Finset Cell)
    (acc : List Sentence) (s1 s2 : Sentence)
    (hnsub : ¬ s1.cells ⊆ s2.cells) (hsub : s2.cells ⊆ s1.cells)
    (hne : 0 < (s1.cells \ s2.cells).card)
    (hnotin : (⟨s1.cells \ s2.cells, s1.count - s2.count⟩ : Sentence) ∉ kb) :
    (⟨s1.cells \ s2.cells, s1.count - s2.count⟩ : Sentence)
      ∈ pairStep kb safes acc s1 s2 := by
  simp only [pairStep, if_neg hnsub, if_pos hsub]
  split
  · simp [List.mem_append]
  · rename_i hcond
    tauto

/-- A `new_sentence_from_safes` candidate of the first pair member is
collected by the pair body. -/
theorem pairStep_nsfs1_complete (kb : List Sentence) (safes : Finset Cell)
    (acc : List Sentence) (s1 s2 c : Sentence)
    (h1 : newSentenceFromSafes kb safes s1 = some c) :
    c ∈ pairStep kb safes acc s1 s2 := by
  simp only [pairStep, condAppend, h1]
  repeat' split
  all_goals simp_all [List.mem_append]

/-- A `new_sentence_from_safes` candidate of the second pair member is
collected by the pair body. -/
theorem pairStep_nsfs2_complete (kb : List Sentence) (safes : Finset Cell)
    (acc : List Sentence) (s1 s2 c : Sentence)
    (h2 : newSentenceFromSafes kb safes s2 = some c) :
    c ∈ pairStep kb safes acc s1 s2 := by
  simp only [pairStep, condAppend, h2]
  repeat' split
  all_goals simp_all [List.mem_append]
  all_goals tauto

/-- If some pair body with fixed first member `s1` and a partner `b`
collects `c` from any accumulator, the inner fold over a list containing `b`
collects `c`. -/
theorem foldlPair_complete (kb : List Sentence) (safes : Finset Cell)
    (s1 b c : Sentence)
    (hstep : ∀ acc : List Sentence, c ∈ pairStep kb safes acc s1 b) :
    ∀ (rest acc : List Sentence), b ∈ rest →
      c ∈ rest.foldl (fun a y => pairStep kb safes a s1 y) acc := by
  intro rest
  induction rest with
  | nil => intro acc h; cases h
  | cons y ys ih =>
      intro acc hb
      rcases List.mem_cons.mp hb with hb | hb
      · subst hb
        exact foldlPair_mono kb safes s1 ys _ c (hstep acc)
      · exact ih _ hb

/-- If both orientations of the pair `(a, b)` collect `c` from any
accumulator, the full pair pass over a list containing both collects `c`. -/
theorem forAddingAux_complete (kb : List Sentence) (safes : Finset Cell)
    (a b c : Sentence) (hab : a ≠ b)
    (h1 : ∀ acc : List Sentence, c ∈ pairStep kb safes acc a b)
    (h2 : ∀ acc : List Sentence, c ∈ pairStep kb safes acc b a) :
    ∀ (l acc : List Sentence), a ∈ l → b ∈ l →
      c ∈ forAddingAux kb safes acc l := by
  intro l
  induction l with
  | nil => intro acc ha _; cases ha
  | cons s rest ih =>
      intro acc ha hb
      by_cases has : a = s
      · subst has
        have hbr : b ∈ rest := by
          rcases List.mem_cons.mp hb with h | h
          · exact absurd h.symm hab
          · exact h
        simp only [forAddingAux]
        exact forAddingAux_mono kb safes rest _ c
          (foldlPair_complete kb safes a b c h1 rest acc hbr)
      · by_cases hbs : b = s
        · subst hbs
          have har : a ∈ rest := by
            rcases List.mem_cons.mp ha with h | h
            · exact absurd h has
            · exact h
          simp only [forAddingAux]
          exact forAddingAux_mono kb safes rest _ c
            (foldlPair_complete kb safes b a c h2 rest acc har)
        · have har : a ∈ rest := by
            rcases List.mem_cons.mp ha with h | h
            · exact absurd h has
            · exact h
          have hbr : b ∈ rest := by
            rcases List.mem_cons.mp hb with h | h
            · exact absurd h hbs
            · exact h
          simp only [forAddingAux]
          exact ih _ har hbr

/-- A sentence with non-empty cells that is in the knowledge base survives
`update_knowledge_base`. -/
theorem updateKB_preserves (safes : Finset Cell) :
    ∀ (n : Nat) (kb kb' : List Sentence), updateKB safes n kb = some kb' →
      ∀ s ∈ kb, 0 < s.cells.card → s ∈ kb' := by
  intro n
  induction n with
  | zero => intro kb kb' h; simp [updateKB] at h
  | succ m ih =>
      intro kb kb' h s hs hcard
      have hk2 : s ∈ noDoubles (kb.filter (fun x => decide (0 < x.cells.card))) := by
        rw [mem_noDoubles]
        exact List.mem_filter.mpr ⟨hs, by simpa using hcard⟩
      simp only [updateKB] at h
      split at h
      · simp only [Option.some.injEq] at h
        subst h
        exact hk2
      · exact ih _ _ h s (List.mem_append.mpr (Or.inl hk2)) hcard

/-- C4, amended.  For every pair of distinct sentences of the knowledge base
with `S1.cells ⊆ S2.cells`, **provided `S1.cells` is non-empty** (an
empty-celled sentence is discarded by normalization before the pair loop runs,
see the counterexample), closure derives the difference sentence
`(S2.cells − S1.cells, S2.count − S1.count)` whenever it is non-empty: it is
in the returned knowledge base whether or not it was already present.  In
particular, from `({a,b,c}, 2)` and `({a,b}, 1)` closure derives `({c}, 1)`
and the subsequent mark-and-recompute loop classifies `c` as a mine. -/
theorem c4_subset_derivation (safes : Finset Cell) (n : Nat)
    (kb kb' : List Sentence) (S1 S2 : Sentence)
    (h1 : S1 ∈ kb) (h2 : S2 ∈ kb) (hfull : 0 < S1.cells.card)
    (hsub : S1.cells ⊆ S2.cells) (hdiff : 0 < (S2.cells \ S1.cells).card)
    (hrun : updateKB safes n kb = some kb') :
    (⟨S2.cells \ S1.cells, S2.count - S1.count⟩ : Sentence) ∈ kb' ∧
    ((⟨{((0:Int),(2:Int))}, 1⟩ : Sentence) ∈
      (updateKB ∅ 5 [⟨{((0:Int),(0:Int)), ((0:Int),(1:Int)), ((0:Int),(2:Int))}, 2⟩,
        ⟨{((0:Int),(0:Int)), ((0:Int),(1:Int))}, 1⟩]).getD [] ∧
      ((0:Int),(2:Int)) ∈ minesOf (runClosure 5
        ⟨3, 3, ∅, ∅, ∅,
          [⟨{((0:Int),(0:Int)), ((0:Int),(1:Int)), ((0:Int),(2:Int))}, 2⟩,
           ⟨{((0:Int),(0:Int)), ((0:Int),(1:Int))}, 1⟩]⟩)) := by
  refine ⟨?_, by decide, by decide⟩
  have hS2card : 0 < S2.cells.card := by
    obtain ⟨x, hx⟩ := Finset.card_pos.mp hfull
    exact Finset.card_pos.mpr ⟨x, hsub hx⟩
  have hne : S1 ≠ S2 := by
    intro he
    rw [he, Finset.sdiff_self] at hdiff
    simp at hdiff
  have hnsub2 : ¬ S2.cells ⊆ S1.cells := by
    intro hs2
    rw [Finset.sdiff_eq_empty_iff_subset.mpr hs2] at hdiff
    simp at hdiff
  set k2 := noDoubles (kb.filter (fun s => decide (0 < s.cells.card))) with hk2def
  have hS1k2 : S1 ∈ k2 := by
    rw [hk2def, mem_noDoubles]
    exact List.mem_filter.mpr ⟨h1, by simpa using hfull⟩
  have hS2k2 : S2 ∈ k2 := by
    rw [hk2def, mem_noDoubles]
    exact List.mem_filter.mpr ⟨h2, by simpa using hS2card⟩
  by_cases hc : (⟨S2.cells \ S1.cells, S2.count - S1.count⟩ : Sentence) ∈ k2
  · have hkb : (⟨S2.cells \ S1.cells, S2.count - S1.count⟩ : Sentence) ∈ kb := by
      rw [hk2def, mem_noDoubles] at hc
      exact (List.mem_filter.mp hc).1
    exact updateKB_preserves safes n kb kb' hrun _ hkb hdiff
  · cases n with
    | zero => simp [updateKB] at hrun
    | succ m =>
        simp only [updateKB] at hrun
        have hfa : (⟨S2.cells \ S1.cells, S2.count - S1.count⟩ : Sentence)
            ∈ forAdding k2 safes :=
          forAddingAux_complete k2 safes S1 S2 _ hne
            (fun acc => pairStep_subset_complete k2 safes acc S1 S2 hsub hdiff hc)
            (fun acc => pairStep_subset_complete_rev k2 safes acc S2 S1 hnsub2 hsub hdiff hc)
            k2 [] hS1k2 hS2k2
        split at hrun
        · rename_i hfae
          rw [forAdding] at hfa
          rw [forAdding] at hfae
          rw [hfae] at hfa
          exact absurd hfa (List.not_mem_nil _)
        · exact updateKB_preserves safes m _ _ hrun _
            (List.mem_append.mpr (Or.inr hfa)) hdiff

/-- Witness for C4's amended statement: a concrete two-sentence base. -/
theorem c4_subset_derivation_witness :
    ((⟨{((9:Int),(9:Int))}, 1⟩ : Sentence) ∈
      [(⟨{((9:Int),(9:Int)), ((8:Int),(8:Int))}, 3⟩ : Sentence), ⟨{((9:Int),(9:Int))}, 1⟩]) ∧
    updateKB ∅ 5 [⟨{((9:Int),(9:Int)), ((8:Int),(8:Int))}, 3⟩, ⟨{((9:Int),(9:Int))}, 1⟩]
      = some [⟨{((9:Int),(9:Int)), ((8:Int),(8:Int))}, 3⟩, ⟨{((9:Int),(9:Int))}, 1⟩,
          ⟨{((8:Int),(8:Int))}, 2⟩] ∧
    (⟨{((8:Int),(8:Int))}, 2⟩ : Sentence) ∈
      [(⟨{((9:Int),(9:Int)), ((8:Int),(8:Int))}, 3⟩ : Sentence), ⟨{((9:Int),(9:Int))}, 1⟩,
        ⟨{((8:Int),(8:Int))}, 2⟩] := by
  refine ⟨by decide, by decide, ?_⟩
  have h := (c4_subset_derivation ∅ 5
    [⟨{((9:Int),(9:Int)), ((8:Int),(8:Int))}, 3⟩, ⟨{((9:Int),(9:Int))}, 1⟩]
    [⟨{((9:Int),(9:Int)), ((8:Int),(8:Int))}, 3⟩, ⟨{((9:Int),(9:Int))}, 1⟩,
      ⟨{((8:Int),(8:Int))}, 2⟩]
    ⟨{((9:Int),(9:Int))}, 1⟩ ⟨{((9:Int),(9:Int)), ((8:Int),(8:Int))}, 3⟩
    (by decide) (by decide) (by decide) (by decide) (by decide) (by decide)).1
  have he : ({((9:Int),(9:Int)), ((8:Int),(8:Int))} : Finset Cell) \ {((9:Int),(9:Int))}
      = {((8:Int),(8:Int))} := by decide
  have he2 : (3 : Int) - 1 = 2 := by decide
  rw [he, he2] at h
  exact h

/-- Conditions under which `new_sentence_from_safes` yields its stripped
sentence: some cell of the sentence is a known safe, the remainder is
non-empty, and the stripped sentence is not already present. -/
theorem nsfs_eq_some (kb : List Sentence) (safes : Finset Cell) (S : Sentence)
    (hint : (S.cells ∩ safes).Nonempty) (hdelta : 0 < (S.cells \ safes).card)
    (hnot : (⟨S.cells \ safes, S.count⟩ : Sentence) ∉ kb) :
    newSentenceFromSafes kb safes S = some ⟨S.cells \ safes, S.count⟩ := by
  obtain ⟨x, hx⟩ := hint
  have hxc := Finset.mem_inter.mp hx
  have hss : S.cells \ safes ⊂ S.cells := by
    rw [Finset.ssubset_iff_subset_ne]
    refine ⟨Finset.sdiff_subset, ?_⟩
    intro he
    have : x ∈ S.cells \ safes := he.symm ▸ hxc.1
    exact (Finset.mem_sdiff.mp this).2 hxc.2
  simp only [newSentenceFromSafes]
  rw [if_pos ⟨hss, hdelta⟩, if_pos ⟨hnot, hdelta⟩]

/-- C10.  During closure, every sentence of the normalized knowledge base
that takes part in a pairwise comparison and whose cells meet the known-safe
set has its safe-stripped variant `(S.cells − safes, S.count)` — count
unchanged — present in the returned knowledge base (derived and appended if
it was not already there); and no analogous rule strips known-mine cells: in
the concrete run below, a sentence containing the known mine `(0, 0)` passes
through the pair loop untouched and neither mine-stripped variant appears. -/
theorem c10_safe_strip_rule (safes : Finset Cell) (n : Nat)
    (kb kb' : List Sentence) (S T : Sentence)
    (hS : S ∈ noDoubles (kb.filter (fun s => decide (0 < s.cells.card))))
    (hT : T ∈ noDoubles (kb.filter (fun s => decide (0 < s.cells.card))))
    (hne : S ≠ T)
    (hint : (S.cells ∩ safes).Nonempty)
    (hdelta : 0 < (S.cells \ safes).card)
    (hrun : updateKB safes n kb = some kb') :
    (⟨S.cells \ safes, S.count⟩ : Sentence) ∈ kb' ∧
    (runClosure 5 ⟨3, 3, ∅, {((0:Int),(0:Int))}, ∅,
        [⟨{((0:Int),(0:Int)), ((0:Int),(1:Int))}, 1⟩, ⟨{((2:Int),(2:Int))}, 5⟩]⟩
      = some ⟨3, 3, ∅, {((0:Int),(0:Int))}, ∅,
          [⟨{((0:Int),(0:Int)), ((0:Int),(1:Int))}, 1⟩, ⟨{((2:Int),(2:Int))}, 5⟩]⟩ ∧
      (⟨{((0:Int),(1:Int))}, 0⟩ : Sentence) ∉
        [(⟨{((0:Int),(0:Int)), ((0:Int),(1:Int))}, 1⟩ : Sentence), ⟨{((2:Int),(2:Int))}, 5⟩] ∧
      (⟨{((0:Int),(1:Int))}, 1⟩ : Sentence) ∉
        [(⟨{((0:Int),(0:Int)), ((0:Int),(1:Int))}, 1⟩ : Sentence), ⟨{((2:Int),(2:Int))}, 5⟩]) := by
  refine ⟨?_, by decide, by decide, by decide⟩
  set k2 := noDoubles (kb.filter (fun s => decide (0 < s.cells.card))) with hk2def
  by_cases hc : (⟨S.cells \ safes, S.count⟩ : Sentence) ∈ k2
  · have hkb : (⟨S.cells \ safes, S.count⟩ : Sentence) ∈ kb := by
      rw [hk2def, mem_noDoubles] at hc
      exact (List.mem_filter.mp hc).1
    exact updateKB_preserves safes n kb kb' hrun _ hkb hdelta
  · have hnsfs := nsfs_eq_some k2 safes S hint hdelta hc
    cases n with
    | zero => simp [updateKB] at hrun
    | succ m =>
        simp only [updateKB] at hrun
        have hfa : (⟨S.cells \ safes, S.count⟩ : Sentence) ∈ forAdding k2 safes :=
          forAddingAux_complete k2 safes S T _ hne
            (fun acc => pairStep_nsfs1_complete k2 safes acc S T _ hnsfs)
            (fun acc => pairStep_nsfs2_complete k2 safes acc T S _ hnsfs)
            k2 [] hS hT
        split at hrun
        · rename_i hfae
          rw [forAdding] at hfa
          rw [forAdding] at hfae
          rw [hfae] at hfa
          exact absurd hfa (List.not_mem_nil _)
        · exact updateKB_preserves safes m _ _ hrun _
            (List.mem_append.mpr (Or.inr hfa)) hdelta

/-- Witness for C10: a two-sentence base with one known safe cell. -/
theorem c10_safe_strip_rule_witness :
    updateKB {((7:Int),(7:Int))} 5
        [⟨{((7:Int),(7:Int)), ((6:Int),(6:Int))}, 1⟩, ⟨{((5:Int),(5:Int))}, 2⟩]
      = some [⟨{((7:Int),(7:Int)), ((6:Int),(6:Int))}, 1⟩, ⟨{((5:Int),(5:Int))}, 2⟩,
          ⟨{((6:Int),(6:Int))}, 1⟩, ⟨{((7:Int),(7:Int))}, 0⟩] ∧
    (⟨{((6:Int),(6:Int))}, 1⟩ : Sentence) ∈
      [(⟨{((7:Int),(7:Int)), ((6:Int),(6:Int))}, 1⟩ : Sentence), ⟨{((5:Int),(5:Int))}, 2⟩,
        ⟨{((6:Int),(6:Int))}, 1⟩, ⟨{((7:Int),(7:Int))}, 0⟩] := by
  refine ⟨by decide, ?_⟩
  have h := (c10_safe_strip_rule {((7:Int),(7:Int))} 5
    [⟨{((7:Int),(7:Int)), ((6:Int),(6:Int))}, 1⟩, ⟨{((5:Int),(5:Int))}, 2⟩]
    [⟨{((7:Int),(7:Int)), ((6:Int),(6:Int))}, 1⟩, ⟨{((5:Int),(5:Int))}, 2⟩,
      ⟨{((6:Int),(6:Int))}, 1⟩, ⟨{((7:Int),(7:Int))}, 0⟩]
    ⟨{((7:Int),(7:Int)), ((6:Int),(6:Int))}, 1⟩ ⟨{((5:Int),(5:Int))}, 2⟩
    (by decide) (by decide) (by decide) (by decide) (by decide) (by decide)).1
  have he : ({((7:Int),(7:Int)), ((6:Int),(6:Int))} : Finset Cell) \ {((7:Int),(7:Int))}
      = {((6:Int),(6:Int))} := by decide
  rw [he] at h
  exact h

/-! ## Soundness of the pair pass: where collected sentences come from -/

/-- Membership after one conditional append. -/
theorem mem_condAppend {x s : Sentence} {acc : List Sentence}
    (h : x ∈ (if s ∈ acc then acc else acc ++ [s])) : x ∈ acc ∨ x = s := by
  split at h
  · exact Or.inl h
  · rcases List.mem_append.mp h with h | h
    · exact Or.inl h
    · exact Or.inr (List.mem_singleton.mp h)

/-- Membership after one `new_sentence_from_safes` stage of the pair body. -/
theorem mem_nsfsStage {A : List Sentence} {o : Option Sentence} {x : Sentence}
    (h : x ∈ condAppend A o) : x ∈ A ∨ o = some x := by
  rcases o with - | t
  · exact Or.inl h
  · rcases mem_condAppend h with h | h
    · exact Or.inl h
    · refine Or.inr ?_
      rw [h]

/-- Every sentence the pair body collects is an old one, a safe-strip
candidate of one of the two members, or their subset-difference candidate
(non-empty and absent from the knowledge base). -/
theorem pairStep_sound {kb : List Sentence} {safes : Finset Cell}
    {acc : List Sentence} {s1 s2 x : Sentence}
    (hx : x ∈ pairStep kb safes acc s1 s2) :
    x ∈ acc
    ∨ newSentenceFromSafes kb safes s1 = some x
    ∨ newSentenceFromSafes kb safes s2 = some x
    ∨ ((s1.cells ⊆ s2.cells ∧ x = ⟨s2.cells \ s1.cells, s2.count - s1.count⟩
        ∨ s2.cells ⊆ s1.cells ∧ x = ⟨s1.cells \ s2.cells, s1.count - s2.count⟩)
        ∧ x ∉ kb ∧ 0 < x.cells.card) := by
  simp only [pairStep] at hx
  split at hx
  · rename_i ns heq
    split at hx
    · rename_i hcond
      rcases List.mem_append.mp hx with hx2 | hx2
      · rcases mem_nsfsStage hx2 with h | h
        · rcases mem_nsfsStage h with h | h
          · exact Or.inl h
          · exact Or.inr (Or.inl h)
        · exact Or.inr (Or.inr (Or.inl h))
      · have hxe := List.mem_singleton.mp hx2
        subst hxe
        refine Or.inr (Or.inr (Or.inr ⟨?_, hcond.1, hcond.2.2⟩))
        split at heq
        · rename_i hs12
          exact Or.inl ⟨hs12, (Option.some.inj heq).symm⟩
        · split at heq
          · rename_i hs21
            exact Or.inr ⟨hs21, (Option.some.inj heq).symm⟩
          · exact Option.noConfusion heq
    · rcases mem_nsfsStage hx with h | h
      · rcases mem_nsfsStage h with h | h
        · exact Or.inl h
        · exact Or.inr (Or.inl h)
      · exact Or.inr (Or.inr (Or.inl h))
  · rcases mem_nsfsStage hx with h | h
    · rcases mem_nsfsStage h with h | h
      · exact Or.inl h
      · exact Or.inr (Or.inl h)
    · exact Or.inr (Or.inr (Or.inl h))

/-- Predicate-transport through the inner fold of the pair pass. -/
theorem foldlPair_sound (kb : List Sentence) (safes : Finset Cell)
    (P : Sentence → Prop)
    (hn : ∀ s x, s ∈ kb → newSentenceFromSafes kb safes s = some x → P x)
    (hd : ∀ s1 s2 x, s1 ∈ kb → s2 ∈ kb →
        (s1.cells ⊆ s2.cells ∧ x = ⟨s2.cells \ s1.cells, s2.count - s1.count⟩
          ∨ s2.cells ⊆ s1.cells ∧ x = ⟨s1.cells \ s2.cells, s1.count - s2.count⟩) →
        x ∉ kb → 0 < x.cells.card → P x)
    (s1 : Sentence) (hs1 : s1 ∈ kb) :
    ∀ (rest acc : List Sentence), (∀ y ∈ rest, y ∈ kb) → (∀ x ∈ acc, P x) →
      ∀ x ∈ rest.foldl (fun a y => pairStep kb safes a s1 y) acc, P x := by
  intro rest
  induction rest with
  | nil => intro acc _ hacc x hx; exact hacc x hx
  | cons y ys ih =>
      intro acc hrest hacc x hx
      refine ih _ (fun z hz => hrest z (List.mem_cons_of_mem y hz)) ?_ x hx
      intro z hz
      rcases pairStep_sound hz with h | h | h | h
      · exact hacc z h
      · exact hn s1 z hs1 h
      · exact hn y z (hrest y (List.mem_cons_self y ys)) h
      · rcases h with ⟨he, hnk, hc⟩
        rcases he with he | he
        · exact hd s1 y z hs1 (hrest y (List.mem_cons_self y ys)) (Or.inl he) hnk hc
        · exact hd s1 y z hs1 (hrest y (List.mem_cons_self y ys)) (Or.inr he) hnk hc

/-- Predicate-transport through the whole pair pass. -/
theorem forAddingAux_sound (kb : List Sentence) (safes : Finset Cell)
    (P : Sentence → Prop)
    (hn : ∀ s x, s ∈ kb → newSentenceFromSafes kb safes s = some x → P x)
    (hd : ∀ s1 s2 x, s1 ∈ kb → s2 ∈ kb →
        (s1.cells ⊆ s2.cells ∧ x = ⟨s2.cells \ s1.cells, s2.count - s1.count⟩
          ∨ s2.cells ⊆ s1.cells ∧ x = ⟨s1.cells \ s2.cells, s1.count - s2.count⟩) →
        x ∉ kb → 0 < x.cells.card → P x) :
    ∀ (l acc : List Sentence), (∀ y ∈ l, y ∈ kb) → (∀ x ∈ acc, P x) →
      ∀ x ∈ forAddingAux kb safes acc l, P x := by
  intro l
  induction l with
  | nil => intro acc _ hacc x hx; exact hacc x hx
  | cons s rest ih =>
      intro acc hl hacc x hx
      simp only [forAddingAux] at hx
      exact ih _ (fun z hz => hl z (List.mem_cons_of_mem s hz))
        (foldlPair_sound kb safes P hn hd s (hl s (List.mem_cons_self s rest)) rest acc
          (fun z hz => hl z (List.mem_cons_of_mem s hz)) hacc) x hx

/-- With no known safes, `new_sentence_from_safes` never produces anything:
removing the empty set never shrinks the cell set strictly. -/
theorem nsfs_empty_safes (kb : List Sentence) (s : Sentence) :
    newSentenceFromSafes kb ∅ s = none := by
  simp only [newSentenceFromSafes]
  rw [if_neg]
  rintro ⟨h1, -⟩
  rw [Finset.sdiff_empty] at h1
  exact (Finset.ssubset_def.mp h1).2 (Finset.Subset.refl _)

/-! ## C8: the closure recursion need not terminate -/

/-- First cell of the diverging family. -/
def cellA : Cell := ((0:Int), (0:Int))

/-- Second cell of the diverging family. -/
def cellB : Cell := ((0:Int), (1:Int))

/-- Cell-shape invariant of the diverging family: every sentence constrains
`{cellA}`, `{cellB}` or `{cellA, cellB}`. -/
def DivShape (s : Sentence) : Prop :=
  s.cells = {cellA} ∨ s.cells = {cellB} ∨ s.cells = {cellA, cellB}

instance (s : Sentence) : Decidable (DivShape s) := by
  unfold DivShape
  infer_instance

/-- Invariant of the diverging family: shapes as above, both `({a,b}, 0)` and
`({a,b}, 1)` present, and some `({a}, x)` present.  Such a knowledge base is
inconsistent — no assignment satisfies both `({a,b}, 0)` and `({a,b}, 1)`. -/
def InvDiv (K : List Sentence) : Prop :=
  (∀ s ∈ K, DivShape s) ∧
  ((⟨{cellA, cellB}, 0⟩ : Sentence) ∈ K) ∧
  ((⟨{cellA, cellB}, 1⟩ : Sentence) ∈ K) ∧
  (∃ x : Int, (⟨{cellA}, x⟩ : Sentence) ∈ K)

/-- Difference sentences of shape-respecting sentences respect the shape. -/
theorem divShape_diff (s1 s2 x : Sentence) (h1 : DivShape s1) (h2 : DivShape s2)
    (hx : x = ⟨s2.cells \ s1.cells, s2.count - s1.count⟩
      ∨ x = ⟨s1.cells \ s2.cells, s1.count - s2.count⟩)
    (hcard : 0 < x.cells.card) : DivShape x := by
  rcases hx with rfl | rfl <;>
    rcases h1 with h1 | h1 | h1 <;> rcases h2 with h2 | h2 | h2 <;>
    simp only [DivShape] at * <;>
    rw [h1, h2] at hcard ⊢ <;>
    first
      | (exact absurd hcard (by decide))
      | (left; decide)
      | (right; left; decide)

/-- On an `InvDiv` knowledge base the pair pass always finds something new:
if it did not, the base would be closed under both difference rules, forcing
the infinitely many sentences `({a}, x), ({a}, x-1), …` into a finite list. -/
theorem div_productive (K : List Sentence) (hInv : InvDiv K) :
    forAdding K ∅ ≠ [] := by
  intro hfa
  obtain ⟨hP, hK0, hK1, x₀, hx₀⟩ := hInv
  rw [forAdding] at hfa
  have hccA : ({cellA} : Finset Cell) ≠ {cellA, cellB} := by decide
  have hccB : ({cellB} : Finset Cell) ≠ {cellA, cellB} := by decide
  have stepAB : ∀ x : Int, (⟨{cellA}, x⟩ : Sentence) ∈ K →
      (⟨{cellB}, 1 - x⟩ : Sentence) ∈ K := by
    intro x hxK
    by_contra hnot
    have hne : (⟨{cellA}, x⟩ : Sentence) ≠ ⟨{cellA, cellB}, 1⟩ := by
      intro he
      exact hccA (congrArg Sentence.cells he)
    have hsub : ({cellA} : Finset Cell) ⊆ {cellA, cellB} := by decide
    have hdiff : 0 < (({cellA, cellB} : Finset Cell) \ {cellA}).card := by decide
    have hcells : ({cellA, cellB} : Finset Cell) \ {cellA} = {cellB} := by decide
    have hnotin : (⟨({cellA, cellB} : Finset Cell) \ {cellA}, 1 - x⟩ : Sentence) ∉ K := by
      rw [hcells]
      exact hnot
    have hnsub : ¬ ({cellA, cellB} : Finset Cell) ⊆ {cellA} := by decide
    have hmem := forAddingAux_complete K ∅ ⟨{cellA}, x⟩ ⟨{cellA, cellB}, 1⟩ _ hne
      (fun acc => pairStep_subset_complete K ∅ acc ⟨{cellA}, x⟩ ⟨{cellA, cellB}, 1⟩
        hsub hdiff hnotin)
      (fun acc => pairStep_subset_complete_rev K ∅ acc ⟨{cellA, cellB}, 1⟩ ⟨{cellA}, x⟩
        hnsub hsub hdiff hnotin)
      K [] hxK hK1
    rw [hfa] at hmem
    exact List.not_mem_nil _ hmem
  have stepBA : ∀ y : Int, (⟨{cellB}, y⟩ : Sentence) ∈ K →
      (⟨{cellA}, 0 - y⟩ : Sentence) ∈ K := by
    intro y hyK
    by_contra hnot
    have hne : (⟨{cellB}, y⟩ : Sentence) ≠ ⟨{cellA, cellB}, 0⟩ := by
      intro he
      exact hccB (congrArg Sentence.cells he)
    have hsub : ({cellB} : Finset Cell) ⊆ {cellA, cellB} := by decide
    have hdiff : 0 < (({cellA, cellB} : Finset Cell) \ {cellB}).card := by decide
    have hcells : ({cellA, cellB} : Finset Cell) \ {cellB} = {cellA} := by decide
    have hnotin : (⟨({cellA, cellB} : Finset Cell) \ {cellB}, 0 - y⟩ : Sentence) ∉ K := by
      rw [hcells]
      exact hnot
    have hnsub : ¬ ({cellA, cellB} : Finset Cell) ⊆ {cellB} := by decide
    have hmem := forAddingAux_complete K ∅ ⟨{cellB}, y⟩ ⟨{cellA, cellB}, 0⟩ _ hne
      (fun acc => pairStep_subset_complete K ∅ acc ⟨{cellB}, y⟩ ⟨{cellA, cellB}, 0⟩
        hsub hdiff hnotin)
      (fun acc => pairStep_subset_complete_rev K ∅ acc ⟨{cellA, cellB}, 0⟩ ⟨{cellB}, y⟩
        hnsub hsub hdiff hnotin)
      K [] hyK hK0
    rw [hfa] at hmem
    exact List.not_mem_nil _ hmem
  have hiter : ∀ n : Nat, (⟨{cellA}, x₀ - (n : Int)⟩ : Sentence) ∈ K := by
    intro n
    induction n with
    | zero => simpa using hx₀
    | succ m ihm =>
        have hb := stepAB _ ihm
        have ha := stepBA _ hb
        have he : (0 : Int) - (1 - (x₀ - (m : Int)))
            = x₀ - (((m + 1 : Nat)) : Int) := by
          push_cast
          ring
        rw [he] at ha
        exact ha
  have hinj : Function.Injective
      (fun n : Nat => (⟨{cellA}, x₀ - (n : Int)⟩ : Sentence)) := by
    intro m n hmn
    have hcnt := congrArg Sentence.count hmn
    simp only at hcnt
    omega
  have hnd : ((List.range (K.length + 1)).map
      (fun n : Nat => (⟨{cellA}, x₀ - (n : Int)⟩ : Sentence))).Nodup :=
    (List.nodup_range _).map hinj
  have hcard : K.length + 1 ≤ K.length := by
    have h1 : ((List.range (K.length + 1)).map
        (fun n : Nat => (⟨{cellA}, x₀ - (n : Int)⟩ : Sentence))).toFinset.card
        = K.length + 1 := by
      rw [List.toFinset_card_of_nodup hnd]
      simp
    have h2 : ((List.range (K.length + 1)).map
        (fun n : Nat => (⟨{cellA}, x₀ - (n : Int)⟩ : Sentence))).toFinset
        ⊆ K.toFinset := by
      intro y hy
      rw [List.mem_toFinset] at hy ⊢
      obtain ⟨n, -, rfl⟩ := List.mem_map.mp hy
      exact hiter n
    have h3 := Finset.card_le_card h2
    have h4 : K.toFinset.card ≤ K.length := List.toFinset_card_le K
    omega
  omega

/-- Any knowledge base satisfying `InvDiv` defeats every amount of fuel: the
Python recursion of `update_knowledge_base` never returns on it. -/
theorem updateKB_diverges_of_inv :
    ∀ (n : Nat) (K : List Sentence), InvDiv K → updateKB ∅ n K = none := by
  intro n
  induction n with
  | zero => intro K _; rfl
  | succ m ih =>
      intro K hInv
      have hInv2 : InvDiv (noDoubles (K.filter (fun s => decide (0 < s.cells.card)))) := by
        refine ⟨?_, ?_, ?_, ?_⟩
        · intro s hs
          rw [mem_noDoubles] at hs
          exact hInv.1 s (List.mem_filter.mp hs).1
        · rw [mem_noDoubles]
          exact List.mem_filter.mpr ⟨hInv.2.1, by decide⟩
        · rw [mem_noDoubles]
          exact List.mem_filter.mpr ⟨hInv.2.2.1, by decide⟩
        · obtain ⟨x, hx⟩ := hInv.2.2.2
          have hpc : (0:Nat) < ({cellA} : Finset Cell).card := by decide
          exact ⟨x, by
            rw [mem_noDoubles]
            exact List.mem_filter.mpr ⟨hx, decide_eq_true hpc⟩⟩
      simp only [updateKB]
      rw [if_neg (div_productive _ hInv2)]
      apply ih
      have hfaShape : ∀ x ∈ forAdding
          (noDoubles (K.filter (fun s => decide (0 < s.cells.card)))) ∅, DivShape x := by
        refine forAddingAux_sound _ ∅ DivShape ?_ ?_ _ []
          (fun y hy => hy) (by intro x hx; cases hx)
        · intro s x _ hns
          rw [nsfs_empty_safes] at hns
          exact Option.noConfusion hns
        · intro s1 s2 x hs1 hs2 hx hnk hc
          exact divShape_diff s1 s2 x (hInv2.1 s1 hs1) (hInv2.1 s2 hs2)
            (hx.imp And.right And.right) hc
      refine ⟨?_, List.mem_append.mpr (Or.inl hInv2.2.1),
        List.mem_append.mpr (Or.inl hInv2.2.2.1), ?_⟩
      · intro s hs
        rcases List.mem_append.mp hs with hs | hs
        · exact hInv2.1 s hs
        · exact hfaShape s hs
      · obtain ⟨x, hx⟩ := hInv2.2.2.2
        exact ⟨x, List.mem_append.mpr (Or.inl hx)⟩

/-- Non-termination of closure on a knowledge base, expressed through the
fuelled embedding: no amount of fuel makes `update_knowledge_base` return. -/
def updateKBDiverges (kb : List Sentence) : Prop :=
  ∀ n : Nat, updateKB ∅ n kb = none

/-- C8 counterexample.  The finite knowledge base
`[({(0,0)}, 0), ({(0,0),(0,1)}, 0), ({(0,0),(0,1)}, 1)]` (with no classified
cells) makes the recursive `update_knowledge_base` run forever: each pass
derives a new singleton sentence with a fresh count, so no fuel suffices and
the closure process does not terminate. -/
theorem c8_counterexample :
    updateKBDiverges [⟨{cellA}, 0⟩, ⟨{cellA, cellB}, 0⟩, ⟨{cellA, cellB}, 1⟩] :=
  fun n => updateKB_diverges_of_inv n _
    ⟨by decide, by decide, by decide, ⟨0, by decide⟩⟩

/-! ## C8, amended: closure terminates on satisfiable knowledge bases -/

theorem condAppend_nodup {A : List Sentence} {o : Option Sentence}
    (h : A.Nodup) : (condAppend A o).Nodup := by
  rcases o with - | t
  · exact h
  · simp only [condAppend]
    split
    · exact h
    · rename_i ht
      rw [List.nodup_append]
      exact ⟨h, List.nodup_singleton t, fun a ha hb => ht ((List.mem_singleton.mp hb) ▸ ha)⟩

theorem pairStep_nodup (kb : List Sentence) (safes : Finset Cell)
    {acc : List Sentence} (s1 s2 : Sentence) (h : acc.Nodup) :
    (pairStep kb safes acc s1 s2).Nodup := by
  simp only [pairStep]
  split
  · rename_i ns heq
    split
    · rename_i hcond
      rw [List.nodup_append]
      refine ⟨condAppend_nodup (condAppend_nodup h), List.nodup_singleton ns, ?_⟩
      intro a ha hb
      exact hcond.2.1 ((List.mem_singleton.mp hb) ▸ ha)
    · exact condAppend_nodup (condAppend_nodup h)
  · exact condAppend_nodup (condAppend_nodup h)

theorem foldlPair_nodup (kb : List Sentence) (safes : Finset Cell) (s1 : Sentence) :
    ∀ (rest acc : List Sentence), acc.Nodup →
      (rest.foldl (fun a y => pairStep kb safes a s1 y) acc).Nodup := by
  intro rest
  induction rest with
  | nil => intro acc h; exact h
  | cons y ys ih => intro acc h; exact ih _ (pairStep_nodup kb safes s1 y h)

theorem forAddingAux_nodup (kb : List Sentence) (safes : Finset Cell) :
    ∀ (l acc : List Sentence), acc.Nodup → (forAddingAux kb safes acc l).Nodup := by
  intro l
  induction l with
  | nil => intro acc h; exact h
  | cons s rest ih => intro acc h; exact ih _ (foldlPair_nodup kb safes s rest acc h)

/-- What a successful `new_sentence_from_safes` returns. -/
theorem nsfs_characterize {kb : List Sentence} {safes : Finset Cell}
    {s x : Sentence} (h : newSentenceFromSafes kb safes s = some x) :
    x = ⟨s.cells \ safes, s.count⟩ ∧ x ∉ kb ∧ 0 < x.cells.card := by
  simp only [newSentenceFromSafes] at h
  split at h
  · split at h
    · rename_i hcond
      have hx := (Option.some.inj h).symm
      subst hx
      exact ⟨rfl, hcond.1, hcond.2⟩
    · exact Option.noConfusion h
  · exact Option.noConfusion h

/-- The subset-difference of two sentences satisfied by `M` is satisfied by
`M`: this is exactly the soundness argument of the spec's Step B. -/
theorem satBy_diff {M : Finset Cell} {s1 s2 : Sentence} (h1 : satBy M s1)
    (h2 : satBy M s2) (hsub : s1.cells ⊆ s2.cells) :
    satBy M ⟨s2.cells \ s1.cells, s2.count - s1.count⟩ := by
  have hset : (s2.cells \ s1.cells) ∩ M = (s2.cells ∩ M) \ (s1.cells ∩ M) := by
    ext a
    simp only [Finset.mem_sdiff, Finset.mem_inter]
    tauto
  have hsub2 : s1.cells ∩ M ⊆ s2.cells ∩ M :=
    Finset.inter_subset_inter hsub (Finset.Subset.refl M)
  show (((s2.cells \ s1.cells) ∩ M).card : Int) = s2.count - s1.count
  rw [hset, Finset.card_sdiff hsub2, Nat.cast_sub (Finset.card_le_card hsub2)]
  simp only [satBy] at h1 h2
  rw [h1, h2]

/-- Stripping cells disjoint from `M` keeps a sentence satisfied by `M` with
its count unchanged: the safe-strip rule is sound for assignments avoiding
the safe set. -/
theorem satBy_strip {M safes : Finset Cell} (hdis : Disjoint safes M)
    {s : Sentence} (hs : satBy M s) : satBy M ⟨s.cells \ safes, s.count⟩ := by
  have hset : (s.cells \ safes) ∩ M = s.cells ∩ M := by
    ext a
    simp only [Finset.mem_sdiff, Finset.mem_inter]
    constructor
    · rintro ⟨⟨ha, -⟩, hm⟩
      exact ⟨ha, hm⟩
    · rintro ⟨ha, hm⟩
      exact ⟨⟨ha, fun hsafe => (Finset.disjoint_left.mp hdis) hsafe hm⟩, hm⟩
  show (((s.cells \ safes) ∩ M).card : Int) = s.count
  rw [hset]
  exact hs

/-- Union of all cells mentioned by the knowledge base. -/
def cellsUnion (kb : List Sentence) : Finset Cell :=
  kb.foldr (fun s acc => s.cells ∪ acc) ∅

theorem subset_cellsUnion : ∀ (kb : List Sentence) (s : Sentence), s ∈ kb →
    s.cells ⊆ cellsUnion kb := by
  intro kb
  induction kb with
  | nil => intro s hs; cases hs
  | cons t rest ih =>
      intro s hs
      rcases List.mem_cons.mp hs with hs | hs
      · subst hs
        exact Finset.subset_union_left
      · exact Finset.Subset.trans (ih s hs) Finset.subset_union_right

/-- A sentence over `U` satisfied by `M` lies in the finite universe of
satisfied sentences over `U`. -/
theorem mem_satUniverse {U M : Finset Cell} {s : Sentence} (hc : s.cells ⊆ U)
    (hs : satBy M s) :
    s ∈ U.powerset.image (fun A => (⟨A, ((A ∩ M).card : Int)⟩ : Sentence)) := by
  rw [Finset.mem_image]
  refine ⟨s.cells, Finset.mem_powerset.mpr hc, ?_⟩
  cases s with
  | mk cs cnt =>
      simp only [satBy] at hs
      simp only
      rw [hs]

/-- A duplicate-free list of members of a finite set is no longer than the
set's cardinality. -/
theorem nodup_length_le_universe {l : List Sentence} (hnd : l.Nodup)
    {S : Finset Sentence} (hsub : ∀ x ∈ l, x ∈ S) : l.length ≤ S.card := by
  have h1 : l.toFinset.card = l.length := List.toFinset_card_of_nodup hnd
  have h2 : l.toFinset ⊆ S := fun y hy => hsub y (List.mem_toFinset.mp hy)
  have h3 := Finset.card_le_card h2
  omega

/-- Fuel bound: on a knowledge base whose sentences are all satisfied by one
assignment `M` disjoint from the safe set, `update_knowledge_base` returns
once the remaining fuel exceeds the number of satisfied sentences over the
cell universe not yet present: every recursion strictly grows the normalized
knowledge base inside that finite universe. -/
theorem updateKB_terminates_aux (U M safes : Finset Cell) (hdis : Disjoint safes M) :
    ∀ (d : Nat) (kb : List Sentence),
      (∀ s ∈ kb, satBy M s ∧ s.cells ⊆ U) →
      (U.powerset.image (fun A => (⟨A, ((A ∩ M).card : Int)⟩ : Sentence))).card
        < d + (noDoubles (kb.filter (fun s => decide (0 < s.cells.card)))).length →
      (updateKB safes d kb).isSome = true := by
  intro d
  induction d with
  | zero =>
      intro kb hInv hbound
      exfalso
      have hk2 : ∀ x ∈ noDoubles (kb.filter (fun s => decide (0 < s.cells.card))),
          x ∈ U.powerset.image (fun A => (⟨A, ((A ∩ M).card : Int)⟩ : Sentence)) := by
        intro x hx
        rw [mem_noDoubles] at hx
        have hxkb := (List.mem_filter.mp hx).1
        exact mem_satUniverse (hInv x hxkb).2 (hInv x hxkb).1
      have hlen := nodup_length_le_universe (noDoubles_nodup _) hk2
      omega
  | succ m ih =>
      intro kb hInv hbound
      simp only [updateKB]
      split
      · rfl
      · rename_i hfa
        set k2 := noDoubles (kb.filter (fun s => decide (0 < s.cells.card))) with hk2def
        have hk2inv : ∀ s ∈ k2, satBy M s ∧ s.cells ⊆ U := by
          intro s hs
          rw [hk2def, mem_noDoubles] at hs
          exact hInv s (List.mem_filter.mp hs).1
        have hfaP : ∀ x ∈ forAdding k2 safes,
            (satBy M x ∧ x.cells ⊆ U) ∧ x ∉ k2 ∧ 0 < x.cells.card := by
          rw [forAdding]
          refine forAddingAux_sound k2 safes
            (fun x => (satBy M x ∧ x.cells ⊆ U) ∧ x ∉ k2 ∧ 0 < x.cells.card)
            ?_ ?_ k2 [] (fun y hy => hy) (by intro x hx; cases hx)
          · intro s x hskb hns
            obtain ⟨hxeq, hnkb, hcard⟩ := nsfs_characterize hns
            subst hxeq
            exact ⟨⟨satBy_strip hdis (hk2inv s hskb).1,
              Finset.Subset.trans Finset.sdiff_subset (hk2inv s hskb).2⟩, hnkb, hcard⟩
          · intro s1 s2 x hs1 hs2 hx hnk hc
            rcases hx with ⟨hsub, rfl⟩ | ⟨hsub, rfl⟩
            · exact ⟨⟨satBy_diff (hk2inv s1 hs1).1 (hk2inv s2 hs2).1 hsub,
                Finset.Subset.trans Finset.sdiff_subset (hk2inv s2 hs2).2⟩, hnk, hc⟩
            · exact ⟨⟨satBy_diff (hk2inv s2 hs2).1 (hk2inv s1 hs1).1 hsub,
                Finset.Subset.trans Finset.sdiff_subset (hk2inv s1 hs1).2⟩, hnk, hc⟩
        have hfand : (forAdding k2 safes).Nodup :=
          forAddingAux_nodup k2 safes k2 [] List.nodup_nil
        have hk2nd : k2.Nodup := noDoubles_nodup _
        apply ih
        · intro s hs
          rcases List.mem_append.mp hs with hs | hs
          · exact hk2inv s hs
          · exact (hfaP s hs).1
        · have hall : ∀ s ∈ k2 ++ forAdding k2 safes, 0 < s.cells.card := by
            intro s hs
            rcases List.mem_append.mp hs with hs | hs
            · rw [hk2def, mem_noDoubles] at hs
              have := (List.mem_filter.mp hs).2
              simpa using this
            · exact (hfaP s hs).2.2
          have hfilter : (k2 ++ forAdding k2 safes).filter
              (fun s => decide (0 < s.cells.card)) = k2 ++ forAdding k2 safes := by
            rw [List.filter_eq_self]
            intro a ha
            simpa using hall a ha
          have hndapp : (k2 ++ forAdding k2 safes).Nodup := by
            rw [List.nodup_append]
            exact ⟨hk2nd, hfand, fun a ha hb => (hfaP a hb).2.1 ha⟩
          have hnodbl : noDoubles ((k2 ++ forAdding k2 safes).filter
              (fun s => decide (0 < s.cells.card))) = k2 ++ forAdding k2 safes := by
            rw [hfilter]
            exact noDoubles_eq_self _ hndapp
          rw [hnodbl, List.length_append]
          have hfalen : 1 ≤ (forAdding k2 safes).length := by
            cases hfc : forAdding k2 safes with
            | nil => exact absurd hfc hfa
            | cons a l => simp
          omega

/-- C8, amended.  The claim fails for arbitrary finite knowledge-base states
(see the counterexample), but holds for every state whose sentences are all
satisfied by a single mine assignment disjoint from the known-safe set — in
particular for any state in which every sentence is true of the real board:
`update_knowledge_base` then terminates, with fuel bounded by the number of
satisfied sentences over the state's cell universe. -/
theorem c8_closure_terminates_when_satisfiable (safes M : Finset Cell)
    (kb : List Sentence) (hdis : Disjoint safes M)
    (hsat : ∀ s ∈ kb, satBy M s) :
    ∃ (n : Nat) (kb2 : List Sentence), updateKB safes n kb = some kb2 := by
  have hinv : ∀ s ∈ kb, satBy M s ∧ s.cells ⊆ cellsUnion kb :=
    fun s hs => ⟨hsat s hs, subset_cellsUnion kb s hs⟩
  have hterm := updateKB_terminates_aux (cellsUnion kb) M safes hdis
    (((cellsUnion kb).powerset.image
      (fun A => (⟨A, ((A ∩ M).card : Int)⟩ : Sentence))).card + 1) kb hinv (by omega)
  rcases he : updateKB safes (((cellsUnion kb).powerset.image
      (fun A => (⟨A, ((A ∩ M).card : Int)⟩ : Sentence))).card + 1) kb with - | kb2
  · rw [he] at hterm
    exact absurd hterm (by simp)
  · exact ⟨_, kb2, he⟩

/-- Witness for C8's amended statement: a satisfiable two-sentence base. -/
theorem c8_closure_terminates_when_satisfiable_witness :
    Disjoint (∅ : Finset Cell) ({((0:Int),(0:Int))} : Finset Cell) ∧
    (∀ s ∈ [(⟨{((0:Int),(0:Int))}, 1⟩ : Sentence),
        ⟨{((0:Int),(0:Int)), ((0:Int),(1:Int))}, 1⟩],
      satBy {((0:Int),(0:Int))} s) ∧
    (∃ (n : Nat) (kb2 : List Sentence),
      updateKB ∅ n [(⟨{((0:Int),(0:Int))}, 1⟩ : Sentence),
        ⟨{((0:Int),(0:Int)), ((0:Int),(1:Int))}, 1⟩] = some kb2) :=
  ⟨Finset.disjoint_empty_left _, by decide,
    c8_closure_terminates_when_satisfiable ∅ {((0:Int),(0:Int))}
      [⟨{((0:Int),(0:Int))}, 1⟩, ⟨{((0:Int),(0:Int)), ((0:Int),(1:Int))}, 1⟩]
      (Finset.disjoint_empty_left _) (by decide)⟩
